import Mathlib

/-!
Verification model of `src/utils/symlink_manager.py` (class `SymlinkManager`).

The manager walks a source tree (the share directory) and a destination tree
(the project root) in parallel and creates directories and symbolic links in
the destination.  We embed both trees shallowly:

* `SNode`/`SKids` model the share-side tree.  The share tree is assumed to
  contain only plain files and directories (no symlinks), which is the
  steady-state of the shared storage the code reads from.
* `DNode`/`DKids` model the destination tree.  A destination entry is a plain
  file, a plain directory, or a symbolic link.  A link target (`LTgt`) either
  resolves to a share-relative path (`into p`, the kind of link the manager
  itself creates), is broken (`dead`), or resolves to an existing non-directory
  outside both trees (`far`).
* Directory children are a mutually-inductive association list so that all
  functions are structurally recursive and reduce definitionally (the kernel
  can evaluate them on concrete inputs).

Modelling boundary: a destination symlink whose target is a share *directory*
can, in the real filesystem, let a write pass through the link and land inside
the share tree.  Writing through a link mutates the link's target, not the
destination tree, so such writes are modelled as failing OS calls; reads
(existence checks) through links are modelled faithfully.  Python-level
exceptions are modelled by the explicit abort/`false` branches that mirror the
`try/except` blocks of the source.
-/

mutual
/-- A node of the share (source) tree: a plain file or a directory. -/
inductive SNode where
  | sfile : SNode
  | sdir : SKids → SNode
/-- Children of a share directory: an association list of names to nodes. -/
inductive SKids where
  | nil : SKids
  | cons : String → SNode → SKids → SKids
end

/-- Looks up an immediate child by name (first match, like a directory listing). -/
def findK : SKids → String → Option SNode
  | .nil, _ => none
  | .cons b t rest, a => if b = a then some t else findK rest a

/-- Resolves a share-relative path in the share tree (`Path.exists` style walk;
the share tree has no symlinks, so this is a plain descent). -/
def SNode.lookup : SNode → List String → Option SNode
  | n, [] => some n
  | .sfile, _ :: _ => none
  | .sdir cs, a :: p =>
    match findK cs a with
    | some c => SNode.lookup c p
    | none => none

/-- Is there a plain file among the immediate children?  Mirrors
`any(item.is_file() for item in share_item.iterdir())` in
`_scan_and_link_directory`. -/
def SKids.hasFileK : SKids → Bool
  | .nil => false
  | .cons _ .sfile _ => true
  | .cons _ (.sdir _) rest => rest.hasFileK

mutual
/-- The subtree contains no files at any level (a pure directory-of-directories,
or empty); a file is never file-free. -/
def SNode.fileFree : SNode → Bool
  | .sfile => false
  | .sdir cs => cs.fileFreeK
/-- All children are file-free subtrees. -/
def SKids.fileFreeK : SKids → Bool
  | .nil => true
  | .cons _ t rest => t.fileFree && rest.fileFreeK
end

/-- The name does not occur among the children. -/
def SKids.keyFree : SKids → String → Bool
  | .nil, _ => true
  | .cons b _ rest, a => !(b = a) && rest.keyFree a

mutual
/-- Well-formedness of a share node: sibling names are distinct at every level
(true of any real directory tree). -/
def SNode.wf : SNode → Bool
  | .sfile => true
  | .sdir cs => cs.wfK
/-- Well-formedness of a children list: the head name does not repeat and every
subtree is well-formed. -/
def SKids.wfK : SKids → Bool
  | .nil => true
  | .cons a t rest => rest.keyFree a && t.wf && rest.wfK
end

/-- Target of a destination symlink.  `into p` resolves to the share-relative
path `p` (the manager's own links are absolute paths under the share root);
`dead` is a broken link; `far` resolves to an existing non-directory outside
both trees. -/
inductive LTgt where
  | into : List String → LTgt
  | dead : LTgt
  | far : LTgt
deriving DecidableEq

mutual
/-- A physical destination entry: plain file, symbolic link, or directory. -/
inductive DNode where
  | dfile : DNode
  | dlink : LTgt → DNode
  | ddir : DKids → DNode
/-- Children of a destination directory. -/
inductive DKids where
  | dnil : DKids
  | dcons : String → DNode → DKids → DKids
end

/-- Looks up an immediate destination child by name. -/
def findD : DKids → String → Option DNode
  | .dnil, _ => none
  | .dcons b t rest, a => if b = a then some t else findD rest a

/-- Replaces the first binding of the name, or appends a new one (the effect of
creating an entry inside a directory). -/
def setD : DKids → String → DNode → DKids
  | .dnil, a, n => .dcons a n .dnil
  | .dcons b m rest, a, n =>
    if b = a then .dcons b n rest else .dcons b m (setD rest a n)

/-- Removes the first binding of the name (`Path.unlink`). -/
def removeD : DKids → String → DKids
  | .dnil, _ => .dnil
  | .dcons b m rest, a => if b = a then rest else .dcons b m (removeD rest a)

/-- The name does not occur among the destination children. -/
def DKids.keyFreeD : DKids → String → Bool
  | .dnil, _ => true
  | .dcons b _ rest, a => !(b = a) && rest.keyFreeD a

/-- Sibling names are distinct at this level (true of any real directory). -/
def DKids.nodupKeys : DKids → Bool
  | .dnil => true
  | .dcons a _ rest => rest.keyFreeD a && rest.nodupKeys

/-- Walks the destination tree along physical components only: the physical
entry stored at a path, without resolving any symlink (what the tree itself
holds at that path). -/
def DNode.phys : DNode → List String → Option DNode
  | n, [] => some n
  | .ddir cs, a :: p =>
    match findD cs a with
    | some c => DNode.phys c p
    | none => none
  | .dfile, _ :: _ => none
  | .dlink _, _ :: _ => none

/-- Physical entry at a path below the destination root directory. -/
def physAt (root : DKids) : List String → Option DNode
  | [] => none
  | a :: p =>
    match findD root a with
    | some c => c.phys p
    | none => none

/-- Does a link target currently resolve to an existing path
(`Path.exists()` seen from the link)?  `share?` is the share root if the share
directory exists. -/
def tgtExists (share? : Option SNode) : LTgt → Bool
  | .into q =>
    match share? with
    | some sh => (sh.lookup q).isSome
    | none => false
  | .dead => false
  | .far => true

/-- Position of the synchronizer inside the destination tree while it walks a
destination path.

* `node d`: a physical entry `d` is stored at this path.
* `free`: no entry here, and the missing parent chain consists only of
  creatable directories (`mkdir(parents=True)` would succeed).
* `blocked`: no entry reachable here because some ancestor is a plain file or a
  non-resolving link: every OS call at this path raises.
* `thru q`: the path crosses a destination symlink and resolves to the
  share-relative path `q`; reads consult the share tree, writes would land
  inside the share (outside the destination tree) and are modelled as failing
  OS calls. -/
inductive Cursor where
  | node : DNode → Cursor
  | free : Cursor
  | blocked : Cursor
  | thru : List String → Cursor

/-- The physical destination entry at the cursor's path, if any. -/
def Cursor.phys : Cursor → Option DNode
  | .node d => some d
  | _ => none

/-- `Path.exists()` at the cursor's destination path, resolving through
symlinks (a link exists iff its target resolves). -/
def curExists (share : SNode) : Cursor → Bool
  | .node .dfile => true
  | .node (.ddir _) => true
  | .node (.dlink t) => tgtExists (some share) t
  | .free => false
  | .blocked => false
  | .thru q => (share.lookup q).isSome

/-- Cursor for the child entry `a` below the current cursor. -/
def childCursor : Cursor → String → Cursor
  | .node (.ddir cs), a =>
    match findD cs a with
    | some d => .node d
    | none => .free
  | .node (.dlink (.into q)), a => .thru (q ++ [a])
  | .node _, _ => .blocked
  | .free, _ => .free
  | .blocked, _ => .blocked
  | .thru q, a => .thru (q ++ [a])

/-- Model of `_create_symlink(source, target)` where `target` is the entry
named `a` below the destination position `parent` and the link shall point at
`t`.  The primitive first runs `target.parent.mkdir(parents=True,
exist_ok=True)`, then `target.symlink_to(source)`; any `OSError` of either
step is caught and reported as `false`.

* parent is a physical directory: `mkdir` is an idempotent no-op; the link is
  created unless an entry of that name is already physically present
  (`symlink_to` raises `FileExistsError`, even on a broken link).
* parent is `free`: `mkdir(parents=True)` creates the missing directory chain,
  then the link is created in the fresh directory.
* parent is a plain file, a broken or non-directory link, or `blocked`:
  `mkdir` raises (`FileExistsError`/`NotADirectoryError`), caught → `false`.
* parent resolves through a symlink (`thru`, or a link to a share directory):
  the write would land outside the destination tree; modelled as a failing OS
  call → `false` (see the module docstring). -/
def createSymlinkStep (parent : Cursor) (a : String) (t : LTgt) : Bool × Cursor :=
  match parent with
  | .node (.ddir cs) =>
    match findD cs a with
    | some _ => (false, .node (.ddir cs))
    | none => (true, .node (.ddir (setD cs a (.dlink t))))
  | .free => (true, .node (.ddir (.dcons a (.dlink t) .dnil)))
  | p => (false, p)

/-- After a recursive call for the child `a` returned the physical entry `e`,
the state of the current destination directory: a physical directory gains (or
keeps) the child entry; any other state is unchanged (a child processed
through a file, a link, or an absent ancestor leaves no physical entry here). -/
def updChild (st : Cursor) (a : String) (e : Option DNode) : Cursor :=
  match st, e with
  | .node (.ddir cs), some n => .node (.ddir (setD cs a n))
  | _, _ => st

mutual
/-- Model of `_sync_directory_recursive(share_path, project_path)`.

`s` is the share node at share-relative path `sp`, `cur` the destination
cursor at destination-relative path `dp`, `denied` the set of share paths
whose enumeration raises `PermissionError`.  Returns the recorded
`(links, directories)` (destination-relative paths, in recording order) and
the physical destination entry left at `dp`.

The body mirrors the Python `try:` block: first, if the destination path does
not exist, `mkdir(parents=True, exist_ok=True)` and record the directory — a
raising `mkdir` (entry present as broken link / ancestor not a directory /
write through a link) aborts the level via the `except` with nothing recorded;
then every item of `share_path.iterdir()` is processed in listing order — an
enumeration error (`PermissionError`, or `NotADirectoryError` when the share
node is a file) aborts the level keeping what was already recorded. -/
def syncDir (share : SNode) (denied : List (List String)) :
    SNode → List String → List String → Cursor →
    List (List String) × List (List String) × Option DNode
  | s, sp, dp, cur =>
    if curExists share cur then
      match s with
      | .sfile => ([], [], cur.phys)
      | .sdir items =>
        if sp ∈ denied then ([], [], cur.phys)
        else
          match syncItems share denied items sp dp cur with
          | (l, d, st) => (l, d, st.phys)
    else
      match cur with
      | .free =>
        match s with
        | .sfile => ([], [dp], some (.ddir .dnil))
        | .sdir items =>
          if sp ∈ denied then ([], [dp], some (.ddir .dnil))
          else
            match syncItems share denied items sp dp (.node (.ddir .dnil)) with
            | (l, d, st) => (l, dp :: d, st.phys)
      | c => ([], [], c.phys)

/-- The per-item loop of `_sync_directory_recursive`: a file item is linked if
its destination path does not exist (resolving through links), a directory
item is recursed into unconditionally; the running cursor carries the state of
the current destination directory. -/
def syncItems (share : SNode) (denied : List (List String)) :
    SKids → List String → List String → Cursor →
    List (List String) × List (List String) × Cursor
  | .nil, _, _, st => ([], [], st)
  | .cons a c rest, sp, dp, st =>
    match c with
    | .sfile =>
      if curExists share (childCursor st a) then
        syncItems share denied rest sp dp st
      else
        match createSymlinkStep st a (.into (sp ++ [a])) with
        | (ok, st') =>
          match syncItems share denied rest sp dp st' with
          | (l, d, st'') => (if ok then (dp ++ [a]) :: l else l, d, st'')
    | .sdir _ =>
      match syncDir share denied c (sp ++ [a]) (dp ++ [a]) (childCursor st a) with
      | (l1, d1, e) =>
        match syncItems share denied rest sp dp (updChild st a e) with
        | (l2, d2, st'') => (l1 ++ l2, d1 ++ d2, st'')
end

/-- The fixed `target_directories` set of `SymlinkManager`, as the list the
model iterates over (Python iterates a `set`; the model fixes one order). -/
def targetDirectories : List String :=
  ["models", "custom_nodes", "input", "output", "user"]

/-- Per-call aggregate reported by `create_symlinks`: created links, created
directories (both destination-relative), and skipped top-level names. -/
structure SyncOutcome where
  links : List (List String)
  dirs : List (List String)
  skipped : List String
deriving DecidableEq

/-- Cursor of the walk at a top-level name: the project root is a directory,
so the entry is either physically present or freely creatable. -/
def rootCursor (root : DKids) (d : String) : Cursor :=
  match findD root d with
  | some n => .node n
  | none => .free

/-- The destination root after a top-level sync left the physical entry `e`
at name `d`. -/
def applyEntry (root : DKids) (d : String) : Option DNode → DKids
  | some n => setD root d n
  | none => root

/-- The loop of `create_symlinks` over the configured top-level names: a name
whose share subtree does not exist is recorded as skipped, otherwise
`_sync_directory_recursive` runs for it and the destination root gains the
resulting entry. -/
def syncTop (share : SNode) (denied : List (List String)) :
    List String → DKids →
    List (List String) × List (List String) × List String × DKids
  | [], root => ([], [], [], root)
  | d :: rest, root =>
    match share.lookup [d] with
    | none =>
      match syncTop share denied rest root with
      | (l, dd, sk, r) => (l, dd, d :: sk, r)
    | some s =>
      match syncDir share denied s [d] [d] (rootCursor root d) with
      | (l1, d1, e) =>
        match syncTop share denied rest (applyEntry root d e) with
        | (l2, d2, sk, r) => (l1 ++ l2, d1 ++ d2, sk, r)

/-- Model of `create_symlinks()`.  `share?` is the share root when the share
directory exists (`none` makes the call a warned no-op), `root` the children of
the project root directory. -/
def createSymlinks (share? : Option SNode) (denied : List (List String))
    (root : DKids) : SyncOutcome × DKids :=
  match share? with
  | none => (⟨[], [], []⟩, root)
  | some share =>
    match syncTop share denied targetDirectories root with
    | (l, d, sk, r) => (⟨l, d, sk⟩, r)

mutual
/-- Model of `_scan_and_link_directory(share_path, project_path, depth)` (the
deep-linking revision of the walk, reachable via `_create_deep_symlinks`).
Items are listed once, then files are processed first and directories second;
an enumeration error (the share node is a file, or its listing is denied)
returns with nothing recorded. -/
def scanDir (share : SNode) (denied : List (List String)) :
    SNode → List String → List String → Cursor →
    List (List String) × Option DNode
  | s, sp, dp, cur =>
    match s with
    | .sfile => ([], cur.phys)
    | .sdir items =>
      if sp ∈ denied then ([], cur.phys)
      else
        match scanFiles share denied items sp dp cur with
        | (l1, st1) =>
          match scanDirs share denied items sp dp st1 with
          | (l2, st2) => (l1 ++ l2, st2.phys)

/-- First pass of `_scan_and_link_directory`: every file item whose destination
path does not exist gets a symlink (failures are logged and skipped). -/
def scanFiles (share : SNode) (denied : List (List String)) :
    SKids → List String → List String → Cursor →
    List (List String) × Cursor
  | .nil, _, _, st => ([], st)
  | .cons a c rest, sp, dp, st =>
    match c with
    | .sdir _ => scanFiles share denied rest sp dp st
    | .sfile =>
      if curExists share (childCursor st a) then
        scanFiles share denied rest sp dp st
      else
        match createSymlinkStep st a (.into (sp ++ [a])) with
        | (ok, st') =>
          match scanFiles share denied rest sp dp st' with
          | (l, st'') => (if ok then (dp ++ [a]) :: l else l, st'')

/-- Second pass of `_scan_and_link_directory`: an existing destination entry is
recursed into (scanning for new files); an absent one is either materialized as
a real directory and recursed into when the share subdirectory has a file among
its immediate children, or covered by a single directory symlink otherwise.
The `has_files` probe and the `mkdir` are inside the level's `try:`, so a
denied probe or a raising `mkdir` aborts the remaining directory items while
keeping what was already recorded. -/
def scanDirs (share : SNode) (denied : List (List String)) :
    SKids → List String → List String → Cursor →
    List (List String) × Cursor
  | .nil, _, _, st => ([], st)
  | .cons a c rest, sp, dp, st =>
    match c with
    | .sfile => scanDirs share denied rest sp dp st
    | .sdir kids =>
      if curExists share (childCursor st a) then
        match scanDir share denied c (sp ++ [a]) (dp ++ [a]) (childCursor st a) with
        | (l1, e) =>
          match scanDirs share denied rest sp dp (updChild st a e) with
          | (l2, st'') => (l1 ++ l2, st'')
      else
        if (sp ++ [a]) ∈ denied then ([], st)
        else if kids.hasFileK then
          match childCursor st a with
          | .free =>
            match scanDir share denied c (sp ++ [a]) (dp ++ [a]) (.node (.ddir .dnil)) with
            | (l1, e) =>
              match scanDirs share denied rest sp dp (updChild st a e) with
              | (l2, st'') => (l1 ++ l2, st'')
          | _ => ([], st)
        else
          match createSymlinkStep st a (.into (sp ++ [a])) with
          | (ok, st') =>
            match scanDirs share denied rest sp dp st' with
            | (l2, st'') => (if ok then (dp ++ [a]) :: l2 else l2, st'')
end

/-- Is the destination entry of this top-level name currently a symbolic link
(`Path.is_symlink()`: an `lstat`, no resolution — a broken link counts)? -/
def isLinkName (root : DKids) (d : String) : Bool :=
  match findD root d with
  | some (.dlink _) => true
  | _ => false

/-- The loop of `remove_symlinks`: unlink every configured name whose entry is
currently a symlink; a denied unlink (`OSError`) is logged, not recorded, and
does not abort the loop. -/
def removeTop (unlinkDenied : List String) : List String → DKids → List String × DKids
  | [], root => ([], root)
  | d :: rest, root =>
    if isLinkName root d then
      if d ∈ unlinkDenied then removeTop unlinkDenied rest root
      else
        match removeTop unlinkDenied rest (removeD root d) with
        | (r, root') => (d :: r, root')
    else removeTop unlinkDenied rest root

/-- Model of `remove_symlinks()`. -/
def removeSymlinks (unlinkDenied : List String) (root : DKids) :
    List String × DKids :=
  removeTop unlinkDenied targetDirectories root

/-- Model of `list_symlinks()`: the configured names whose destination entry is
currently a symlink. -/
def listSymlinks (root : DKids) : List String :=
  targetDirectories.filter (fun d => isLinkName root d)

/-- Report of `get_symlink_info()`: for every configured name, one of three
buckets — symlink entries carry the resolution target and whether it currently
exists; `existing` holds names present as plain (non-link) entries; `missing`
holds the names of the `missing_in_share` bucket. -/
structure InfoReport where
  symlinks : List (String × LTgt × Bool)
  existing : List String
  missing : List String

/-- The classification loop of `get_symlink_info`. -/
def infoTop (share? : Option SNode) (root : DKids) : List String → InfoReport
  | [] => ⟨[], [], []⟩
  | d :: rest =>
    let r := infoTop share? root rest
    match findD root d with
    | some (.dlink t) => ⟨(d, t, tgtExists share? t) :: r.symlinks, r.existing, r.missing⟩
    | some _ => ⟨r.symlinks, d :: r.existing, r.missing⟩
    | none => ⟨r.symlinks, r.existing, d :: r.missing⟩

/-- Model of `get_symlink_info()`: a pure read of the destination tree (the
function builds and returns a report and performs no filesystem mutation). -/
def getSymlinkInfo (share? : Option SNode) (root : DKids) : InfoReport :=
  infoTop share? root targetDirectories

/-- Cursor seen by a second run at a path where a first run left the physical
entry `e`: a created entry is now a physical node, otherwise the position is
unchanged. -/
def afterCur (cur : Cursor) (e : Option DNode) : Cursor :=
  match e with
  | some n => .node n
  | none => cur

/-- Cursors at which the synchronizer can neither create nor change anything:
a plain file, a symlink of any kind, a blocked path, or a position through a
link. -/
def Cursor.inert : Cursor → Bool
  | .node (.ddir _) => false
  | .free => false
  | _ => true

/-- The cursor is not `free` (every call site inside the walk passes either a
physical node or an unreachable position). -/
def Cursor.notFree : Cursor → Bool
  | .free => false
  | _ => true

/-- Constructor tag of a destination entry (file / link / directory), used to
state that a run never changes what kind of entry sits at a path. -/
def kindOf : DNode → Nat
  | .dfile => 0
  | .dlink _ => 1
  | .ddir _ => 2

/-- The link target of an entry, when it is a link. -/
def linkTgtOf : DNode → Option LTgt
  | .dlink t => some t
  | _ => none

mutual
/-- `ExtN new old`: the destination entry `new` is the entry `old` after a run
that only ever adds entries: files and links are unchanged (same target), a
directory keeps all its entries in place (each possibly extended) and may gain
new ones at the end. -/
inductive ExtN : DNode → DNode → Prop where
  | file : ExtN .dfile .dfile
  | link : ∀ t, ExtN (.dlink t) (.dlink t)
  | dir : ∀ {cs' cs}, ExtK cs' cs → ExtN (.ddir cs') (.ddir cs)
/-- `ExtK new old`: pointwise extension of a children list, with possibly new
entries appended after the old ones. -/
inductive ExtK : DKids → DKids → Prop where
  | nil : ∀ cs', ExtK cs' .dnil
  | cons : ∀ {a n n' rest' rest}, ExtN n' n → ExtK rest' rest →
      ExtK (.dcons a n' rest') (.dcons a n rest)
end

/-- Example share tree used by witnesses: `models/checkpoints/a.safetensors`
(a file) and `models/loras` (an empty directory). -/
def exShare : SNode :=
  .sdir (.cons "models" (.sdir
    (.cons "checkpoints" (.sdir (.cons "a.safetensors" .sfile .nil))
    (.cons "loras" (.sdir .nil) .nil))) .nil)

/-- Share tree whose `models` subtree is a pure directory-of-directories
(`models/sub/inner`, no file anywhere). -/
def exShareC1 : SNode :=
  .sdir (.cons "models" (.sdir
    (.cons "sub" (.sdir (.cons "inner" (.sdir .nil) .nil)) .nil)) .nil)

/-- Share tree whose `models` directory lists a subdirectory `d` (holding the
file `g`) before the file `f`. -/
def exShareC2 : SNode :=
  .sdir (.cons "models" (.sdir
    (.cons "d" (.sdir (.cons "g" .sfile .nil))
    (.cons "f" .sfile .nil))) .nil)

/-- Share tree for the failure-isolation claim: the `models/a` subtree is
arbitrary (its enumeration will be denied), while `models/b` and the top-level
name `input` hold one file each. -/
def exShareC5 (sub : SNode) : SNode :=
  .sdir (.cons "models" (.sdir
    (.cons "a" sub
    (.cons "b" (.sdir (.cons "f" .sfile .nil)) .nil)))
  (.cons "input" (.sdir (.cons "g" .sfile .nil)) .nil))

/-- Destination root holding one entry of every kind among the configured
names: a plain directory, a plain file, a broken link, a link into the share
and a link to a target outside both trees. -/
def exRootMixed : DKids :=
  .dcons "models" (.ddir (.dcons "x" .dfile .dnil))
  (.dcons "custom_nodes" .dfile
  (.dcons "input" (.dlink .dead)
  (.dcons "output" (.dlink (.into ["output"]))
  (.dcons "user" (.dlink .far) .dnil))))

/-- Two walk positions that hold the same destination state except possibly at
the child entry named `a`: either equal, or both physical directories whose
children agree on every name other than `a`. -/
def agreeExceptAt (a : String) (st st' : Cursor) : Prop :=
  st = st' ∨ ∃ cs cs', st = .node (.ddir cs) ∧ st' = .node (.ddir cs') ∧
    ∀ b, b ≠ a → findD cs b = findD cs' b

theorem findK_of_keyFree : ∀ {cs : SKids} {a : String},
    cs.keyFree a = true → findK cs a = none
  | .nil, _, _ => rfl
  | .cons b t rest, a, h => by
    simp only [SKids.keyFree, Bool.and_eq_true, Bool.not_eq_true'] at h
    simp only [findK, if_neg (by simpa using h.1)]
    exact findK_of_keyFree h.2

theorem findD_of_keyFreeD : ∀ {cs : DKids} {a : String},
    cs.keyFreeD a = true → findD cs a = none
  | .dnil, _, _ => rfl
  | .dcons b t rest, a, h => by
    simp only [DKids.keyFreeD, Bool.and_eq_true, Bool.not_eq_true'] at h
    simp only [findD, if_neg (by simpa using h.1)]
    exact findD_of_keyFreeD h.2

theorem findD_setD_self : ∀ (cs : DKids) (a : String) (n : DNode),
    findD (setD cs a n) a = some n
  | .dnil, a, n => by simp [setD, findD]
  | .dcons b m rest, a, n => by
    by_cases hb : b = a
    · simp [setD, findD, hb]
    · simp [setD, findD, hb, findD_setD_self rest a n]

theorem findD_setD_ne : ∀ (cs : DKids) (a b : String) (n : DNode),
    b ≠ a → findD (setD cs a n) b = findD cs b
  | .dnil, a, b, n, h => by
    have hba : ¬(a = b) := fun h' => h h'.symm
    simp [setD, findD, hba]
  | .dcons c m rest, a, b, n, h => by
    simp only [setD]
    by_cases hc : c = a
    · rw [if_pos hc]
      have hcb : ¬(c = b) := fun hcb => h (by rw [← hcb, hc])
      simp only [findD, if_neg hcb]
    · rw [if_neg hc]
      simp only [findD]
      by_cases hcb : c = b
      · rw [if_pos hcb, if_pos hcb]
      · rw [if_neg hcb, if_neg hcb]
        exact findD_setD_ne rest a b n h

theorem setD_self_eq : ∀ {cs : DKids} {a : String} {n : DNode},
    findD cs a = some n → setD cs a n = cs
  | .dnil, a, n, h => by simp [findD] at h
  | .dcons b m rest, a, n, h => by
    simp only [findD] at h
    simp only [setD]
    by_cases hb : b = a
    · rw [if_pos hb] at h
      rw [if_pos hb]
      obtain rfl : m = n := by injection h
      rfl
    · rw [if_neg hb] at h
      rw [if_neg hb, setD_self_eq h]

theorem findD_removeD_ne : ∀ (cs : DKids) (a b : String), b ≠ a →
    findD (removeD cs a) b = findD cs b
  | .dnil, _, _, _ => rfl
  | .dcons c m rest, a, b, h => by
    simp only [removeD]
    by_cases hc : c = a
    · rw [if_pos hc]
      have hcb : ¬(c = b) := fun hcb => h (by rw [← hcb, hc])
      simp only [findD, if_neg hcb]
    · rw [if_neg hc]
      simp only [findD]
      by_cases hcb : c = b
      · rw [if_pos hcb, if_pos hcb]
      · rw [if_neg hcb, if_neg hcb]
        exact findD_removeD_ne rest a b h

theorem findD_removeD_self : ∀ {cs : DKids} {a : String},
    cs.nodupKeys = true → findD (removeD cs a) a = none
  | .dnil, _, _ => rfl
  | .dcons b m rest, a, h => by
    simp only [DKids.nodupKeys, Bool.and_eq_true] at h
    by_cases hb : b = a
    · subst hb
      simp only [removeD, if_pos rfl]
      exact findD_of_keyFreeD h.1
    · simp [removeD, findD, hb, @findD_removeD_self rest a h.2]

theorem wfK_findK : ∀ {cs : SKids} {a : String} {c : SNode},
    cs.wfK = true → findK cs a = some c → c.wf = true
  | .nil, _, _, _, h => by simp [findK] at h
  | .cons b t rest, a, c, hwf, h => by
    simp only [SKids.wfK, Bool.and_eq_true] at hwf
    by_cases hb : b = a
    · simp only [findK, if_pos hb, Option.some.injEq] at h
      exact h ▸ hwf.1.2
    · simp only [findK, if_neg hb] at h
      exact wfK_findK hwf.2 h

theorem wf_lookup : ∀ {p : List String} {sh : SNode} {s : SNode},
    sh.wf = true → sh.lookup p = some s → s.wf = true
  | [], sh, s, hwf, h => by
    simp only [SNode.lookup, Option.some.injEq] at h
    exact h ▸ hwf
  | a :: p, .sfile, s, hwf, h => by simp [SNode.lookup] at h
  | a :: p, .sdir cs, s, hwf, h => by
    simp only [SNode.lookup] at h
    cases hf : findK cs a with
    | none => simp [hf] at h
    | some c =>
      simp only [hf] at h
      exact wf_lookup (wfK_findK (by simpa [SNode.wf] using hwf) hf) h

theorem lookup_child : ∀ {sp : List String} {sh : SNode} {cs : SKids}
    {a : String} {c : SNode}, sh.lookup sp = some (.sdir cs) →
    findK cs a = some c → sh.lookup (sp ++ [a]) = some c
  | [], sh, cs, a, c, hsp, hf => by
    simp only [SNode.lookup, Option.some.injEq] at hsp
    subst hsp
    simp [SNode.lookup, hf]
  | b :: p, .sfile, cs, a, c, hsp, hf => by simp [SNode.lookup] at hsp
  | b :: p, .sdir ks, cs, a, c, hsp, hf => by
    simp only [SNode.lookup] at hsp ⊢
    cases hb : findK ks b with
    | none => simp [hb] at hsp
    | some d =>
      simp only [hb] at hsp ⊢
      exact lookup_child hsp hf

theorem afterCur_phys (cur : Cursor) : afterCur cur cur.phys = cur := by
  cases cur <;> rfl

theorem createSymlinkStep_inert {st : Cursor} (h : st.inert = true)
    (a : String) (t : LTgt) : createSymlinkStep st a t = (false, st) := by
  cases st with
  | node d => cases d with
    | dfile => rfl
    | dlink t' => rfl
    | ddir cs => simp [Cursor.inert] at h
  | free => simp [Cursor.inert] at h
  | blocked => rfl
  | thru q => rfl

theorem childCursor_inert {st : Cursor} (h : st.inert = true) (a : String) :
    (childCursor st a).inert = true ∧ (childCursor st a).phys = none := by
  cases st with
  | node d => cases d with
    | dfile => exact ⟨rfl, rfl⟩
    | dlink t => cases t <;> exact ⟨rfl, rfl⟩
    | ddir cs => simp [Cursor.inert] at h
  | free => simp [Cursor.inert] at h
  | blocked => exact ⟨rfl, rfl⟩
  | thru q => exact ⟨rfl, rfl⟩

theorem updChild_inert {st : Cursor} (h : st.inert = true) (a : String)
    (e : Option DNode) : updChild st a e = st := by
  cases st with
  | node d => cases d with
    | dfile => cases e <;> rfl
    | dlink t => cases e <;> rfl
    | ddir cs => simp [Cursor.inert] at h
  | free => simp [Cursor.inert] at h
  | blocked => cases e <;> rfl
  | thru q => cases e <;> rfl

mutual
theorem syncDir_inert (share : SNode) (denied : List (List String)) :
    ∀ (s : SNode) (sp dp : List String) (cur : Cursor), cur.inert = true →
      syncDir share denied s sp dp cur = ([], [], cur.phys)
  | .sfile, sp, dp, cur, h => by
    simp only [syncDir]
    split
    · rfl
    · cases cur with
      | node d => rfl
      | free => simp [Cursor.inert] at h
      | blocked => rfl
      | thru q => rfl
  | .sdir items, sp, dp, cur, h => by
    simp only [syncDir]
    split
    · split
      · rfl
      · rw [syncItems_inert share denied items sp dp cur h]
    · cases cur with
      | node d => rfl
      | free => simp [Cursor.inert] at h
      | blocked => rfl
      | thru q => rfl

theorem syncItems_inert (share : SNode) (denied : List (List String)) :
    ∀ (items : SKids) (sp dp : List String) (st : Cursor), st.inert = true →
      syncItems share denied items sp dp st = ([], [], st)
  | .nil, sp, dp, st, h => rfl
  | .cons a .sfile rest, sp, dp, st, h => by
    simp only [syncItems]
    split
    · exact syncItems_inert share denied rest sp dp st h
    · rw [createSymlinkStep_inert h, syncItems_inert share denied rest sp dp st h]
      rfl
  | .cons a (.sdir ks) rest, sp, dp, st, h => by
    simp only [syncItems]
    have hcc := childCursor_inert h a
    rw [syncDir_inert share denied (.sdir ks) (sp ++ [a]) (dp ++ [a]) _ hcc.1,
      hcc.2, updChild_inert h, syncItems_inert share denied rest sp dp st h]
    rfl
end

theorem keyFree_head {a b : String} {c : SNode} {rest : SKids}
    (h : (SKids.cons a c rest).keyFree b = true) : ¬(a = b) := by
  simp only [SKids.keyFree, Bool.and_eq_true, Bool.not_eq_true'] at h
  simpa using h.1

theorem keyFree_tail {a b : String} {c : SNode} {rest : SKids}
    (h : (SKids.cons a c rest).keyFree b = true) : rest.keyFree b = true := by
  simp only [SKids.keyFree, Bool.and_eq_true] at h
  exact h.2

theorem syncItems_ddir (share : SNode) (denied : List (List String)) :
    ∀ (items : SKids) (sp dp : List String) (cs : DKids),
    ∃ l d cs', syncItems share denied items sp dp (.node (.ddir cs)) =
        (l, d, .node (.ddir cs')) ∧
      ∀ b, items.keyFree b = true → findD cs' b = findD cs b
  | .nil, sp, dp, cs => ⟨[], [], cs, rfl, fun _ _ => rfl⟩
  | .cons a .sfile rest, sp, dp, cs => by
    simp only [syncItems]
    split
    · obtain ⟨l, d, cs', heq, hfr⟩ := syncItems_ddir share denied rest sp dp cs
      exact ⟨l, d, cs', heq, fun b hb => hfr b (keyFree_tail hb)⟩
    · cases hfa : findD cs a with
      | some n =>
        obtain ⟨l, d, cs', heq, hfr⟩ := syncItems_ddir share denied rest sp dp cs
        simp only [createSymlinkStep, hfa, heq]
        exact ⟨l, d, cs', rfl, fun b hb => hfr b (keyFree_tail hb)⟩
      | none =>
        obtain ⟨l, d, cs', heq, hfr⟩ := syncItems_ddir share denied rest sp dp
          (setD cs a (.dlink (.into (sp ++ [a]))))
        simp only [createSymlinkStep, hfa, heq]
        refine ⟨(dp ++ [a]) :: l, d, cs', by simp, fun b hb => ?_⟩
        have hab : ¬(a = b) := keyFree_head hb
        rw [hfr b (keyFree_tail hb), findD_setD_ne cs _ b _ (fun h => hab h.symm)]
  | .cons a (.sdir ks) rest, sp, dp, cs => by
    simp only [syncItems]
    rcases hd : syncDir share denied (.sdir ks) (sp ++ [a]) (dp ++ [a])
        (childCursor (.node (.ddir cs)) a) with ⟨l1, d1, e⟩
    cases e with
    | some n =>
      obtain ⟨l2, d2, cs', heq, hfr⟩ :=
        syncItems_ddir share denied rest sp dp (setD cs a n)
      simp only [updChild, heq]
      refine ⟨l1 ++ l2, d1 ++ d2, cs', rfl, fun b hb => ?_⟩
      have hab : ¬(a = b) := keyFree_head hb
      rw [hfr b (keyFree_tail hb), findD_setD_ne cs _ b _ (fun h => hab h.symm)]
    | none =>
      obtain ⟨l2, d2, cs', heq, hfr⟩ := syncItems_ddir share denied rest sp dp cs
      simp only [updChild, heq]
      exact ⟨l1 ++ l2, d1 ++ d2, cs', rfl, fun b hb => hfr b (keyFree_tail hb)⟩

theorem wfK_parts {a : String} {c : SNode} {rest : SKids}
    (h : (SKids.cons a c rest).wfK = true) :
    rest.keyFree a = true ∧ c.wf = true ∧ rest.wfK = true := by
  simpa [SKids.wfK, Bool.and_eq_true, and_assoc] using h

theorem hfind_tail {share : SNode} {sp : List String} {a : String} {c : SNode}
    {rest : SKids} (hka : rest.keyFree a = true)
    (hfind : ∀ b c', findK (.cons a c rest) b = some c' →
      share.lookup (sp ++ [b]) = some c') :
    ∀ b c', findK rest b = some c' → share.lookup (sp ++ [b]) = some c' := by
  intro b c' hb
  by_cases hab : a = b
  · rw [← hab, findK_of_keyFree hka] at hb
    cases hb
  · exact hfind b c' (by simpa [findK, hab] using hb)

theorem childCursor_congr {cs cs' : DKids} {a : String}
    (h : findD cs' a = findD cs a) :
    childCursor (.node (.ddir cs')) a = childCursor (.node (.ddir cs)) a := by
  simp only [childCursor, h]

theorem findK_self (a : String) (c : SNode) (rest : SKids) :
    findK (.cons a c rest) a = some c := by
  simp [findK]

theorem proj22 {α β γ : Type} {x : α × β × γ} {a : α} {b : β} {c : γ}
    (h : x = (a, b, c)) : x.2.2 = c := by rw [h]

mutual
theorem syncDir_idem (share : SNode) (denied : List (List String)) :
    ∀ (s : SNode) (sp dp : List String) (cur : Cursor),
      s.wf = true → share.lookup sp = some s →
      ∀ l d e, syncDir share denied s sp dp cur = (l, d, e) →
      syncDir share denied s sp dp (afterCur cur e) = ([], [], e)
  | .sfile, sp, dp, cur, hwf, hsp, l, d, e, hrun => by
    simp only [syncDir] at hrun ⊢
    by_cases hex : curExists share cur = true
    · rw [if_pos hex] at hrun
      obtain ⟨rfl, rfl, rfl⟩ : ([] : List (List String)) = l ∧
          ([] : List (List String)) = d ∧ cur.phys = e := by
        simpa [Prod.ext_iff] using hrun
      rw [afterCur_phys, if_pos hex]
    · rw [if_neg hex] at hrun
      cases cur with
      | node n =>
        obtain ⟨rfl, rfl, rfl⟩ : ([] : List (List String)) = l ∧
            ([] : List (List String)) = d ∧ some n = e := by
          simpa [Prod.ext_iff, Cursor.phys] using hrun
        simp only [afterCur]
        rw [if_neg hex]
        rfl
      | free =>
        obtain ⟨rfl, rfl, rfl⟩ : ([] : List (List String)) = l ∧ [dp] = d ∧
            some (DNode.ddir .dnil) = e := by
          simpa [Prod.ext_iff] using hrun
        simp only [afterCur]
        rfl
      | blocked =>
        obtain ⟨rfl, rfl, rfl⟩ : ([] : List (List String)) = l ∧
            ([] : List (List String)) = d ∧ (none : Option DNode) = e := by
          simpa [Prod.ext_iff, Cursor.phys] using hrun
        simp only [afterCur]
        rw [if_neg hex]
        rfl
      | thru q =>
        obtain ⟨rfl, rfl, rfl⟩ : ([] : List (List String)) = l ∧
            ([] : List (List String)) = d ∧ (none : Option DNode) = e := by
          simpa [Prod.ext_iff, Cursor.phys] using hrun
        simp only [afterCur]
        rw [if_neg hex]
        rfl
  | .sdir items, sp, dp, cur, hwf, hsp, l, d, e, hrun => by
    have hfind : ∀ b c, findK items b = some c →
        share.lookup (sp ++ [b]) = some c := fun b c hb => lookup_child hsp hb
    have hwfk : items.wfK = true := by simpa [SNode.wf] using hwf
    simp only [syncDir] at hrun ⊢
    by_cases hex : curExists share cur = true
    · rw [if_pos hex] at hrun
      by_cases hden : sp ∈ denied
      · rw [if_pos hden] at hrun
        obtain ⟨rfl, rfl, rfl⟩ : ([] : List (List String)) = l ∧
            ([] : List (List String)) = d ∧ cur.phys = e := by
          simpa [Prod.ext_iff] using hrun
        rw [afterCur_phys, if_pos hex, if_pos hden]
      · rw [if_neg hden] at hrun
        cases cur with
        | node n =>
          cases n with
          | ddir cs =>
            obtain ⟨l0, d0, cs', heq, _⟩ := syncItems_ddir share denied items sp dp cs
            rw [heq] at hrun
            obtain ⟨rfl, rfl, rfl⟩ : l0 = l ∧ d0 = d ∧
                some (DNode.ddir cs') = e := by
              simpa [Prod.ext_iff, Cursor.phys] using hrun
            have hidem := syncItems_idem share denied items sp dp cs hwfk hfind
              l0 d0 (.node (.ddir cs')) heq
            simp only [afterCur]
            rw [if_pos (by rfl : curExists share (Cursor.node (DNode.ddir cs')) = true),
              if_neg hden, hidem]
            rfl
          | dfile =>
            rw [syncItems_inert share denied items sp dp _ (by rfl)] at hrun
            obtain ⟨rfl, rfl, rfl⟩ : ([] : List (List String)) = l ∧
                ([] : List (List String)) = d ∧ some DNode.dfile = e := by
              simpa [Prod.ext_iff, Cursor.phys] using hrun
            simp only [afterCur]
            rw [if_pos hex, if_neg hden,
              syncItems_inert share denied items sp dp _ (by rfl)]
            rfl
          | dlink t =>
            rw [syncItems_inert share denied items sp dp _ (by rfl)] at hrun
            obtain ⟨rfl, rfl, rfl⟩ : ([] : List (List String)) = l ∧
                ([] : List (List String)) = d ∧ some (DNode.dlink t) = e := by
              simpa [Prod.ext_iff, Cursor.phys] using hrun
            simp only [afterCur]
            rw [if_pos hex, if_neg hden,
              syncItems_inert share denied items sp dp _ (by rfl)]
            rfl
        | free => simp [curExists] at hex
        | blocked => simp [curExists] at hex
        | thru q =>
          rw [syncItems_inert share denied items sp dp _ (by rfl)] at hrun
          obtain ⟨rfl, rfl, rfl⟩ : ([] : List (List String)) = l ∧
              ([] : List (List String)) = d ∧ (none : Option DNode) = e := by
            simpa [Prod.ext_iff, Cursor.phys] using hrun
          simp only [afterCur]
          rw [if_pos hex, if_neg hden,
            syncItems_inert share denied items sp dp _ (by rfl)]
          rfl
    · rw [if_neg hex] at hrun
      cases cur with
      | free =>
        by_cases hden : sp ∈ denied
        · rw [if_pos hden] at hrun
          obtain ⟨rfl, rfl, rfl⟩ : ([] : List (List String)) = l ∧ [dp] = d ∧
              some (DNode.ddir .dnil) = e := by
            simpa [Prod.ext_iff] using hrun
          simp only [afterCur]
          rw [if_pos (by rfl : curExists share (Cursor.node (DNode.ddir .dnil)) = true),
            if_pos hden]
          rfl
        · rw [if_neg hden] at hrun
          obtain ⟨l0, d0, cs', heq, _⟩ := syncItems_ddir share denied items sp dp .dnil
          rw [heq] at hrun
          obtain ⟨rfl, rfl, rfl⟩ : l0 = l ∧ dp :: d0 = d ∧
              some (DNode.ddir cs') = e := by
            simpa [Prod.ext_iff, Cursor.phys] using hrun
          have hidem := syncItems_idem share denied items sp dp .dnil hwfk hfind
            l0 d0 (.node (.ddir cs')) heq
          simp only [afterCur]
          rw [if_pos (by rfl : curExists share (Cursor.node (DNode.ddir cs')) = true),
            if_neg hden, hidem]
          rfl
      | node n =>
        obtain ⟨rfl, rfl, rfl⟩ : ([] : List (List String)) = l ∧
            ([] : List (List String)) = d ∧ some n = e := by
          simpa [Prod.ext_iff, Cursor.phys] using hrun
        simp only [afterCur]
        rw [if_neg hex]
        rfl
      | blocked =>
        obtain ⟨rfl, rfl, rfl⟩ : ([] : List (List String)) = l ∧
            ([] : List (List String)) = d ∧ (none : Option DNode) = e := by
          simpa [Prod.ext_iff, Cursor.phys] using hrun
        simp only [afterCur]
        rw [if_neg hex]
        rfl
      | thru q =>
        obtain ⟨rfl, rfl, rfl⟩ : ([] : List (List String)) = l ∧
            ([] : List (List String)) = d ∧ (none : Option DNode) = e := by
          simpa [Prod.ext_iff, Cursor.phys] using hrun
        simp only [afterCur]
        rw [if_neg hex]
        rfl

theorem syncItems_idem (share : SNode) (denied : List (List String)) :
    ∀ (items : SKids) (sp dp : List String) (cs : DKids),
      items.wfK = true →
      (∀ b c, findK items b = some c → share.lookup (sp ++ [b]) = some c) →
      ∀ l d st', syncItems share denied items sp dp (.node (.ddir cs)) = (l, d, st') →
      syncItems share denied items sp dp st' = ([], [], st')
  | .nil, sp, dp, cs, hwfk, hfind, l, d, st', hrun => by
    obtain ⟨rfl, rfl, rfl⟩ : ([] : List (List String)) = l ∧
        ([] : List (List String)) = d ∧ Cursor.node (DNode.ddir cs) = st' := by
      simpa [syncItems, Prod.ext_iff] using hrun
    rfl
  | .cons a .sfile rest, sp, dp, cs, hwfk, hfind, l, d, st', hrun => by
    obtain ⟨hka, _, hwfr⟩ := wfK_parts hwfk
    have hfind' := hfind_tail hka hfind
    simp only [syncItems] at hrun ⊢
    by_cases hex : curExists share (childCursor (.node (.ddir cs)) a) = true
    · rw [if_pos hex] at hrun
      obtain ⟨l0, d0, cs', heq, hfr⟩ := syncItems_ddir share denied rest sp dp cs
      have hst' : st' = .node (.ddir cs') := by
        have := proj22 (hrun.symm.trans heq)
        simpa using this
      subst hst'
      have hcc : childCursor (.node (.ddir cs')) a =
          childCursor (.node (.ddir cs)) a := childCursor_congr (hfr a hka)
      rw [hcc, if_pos hex]
      exact syncItems_idem share denied rest sp dp cs hwfr hfind' l d _ hrun
    · rw [if_neg hex] at hrun
      cases hfa : findD cs a with
      | none =>
        obtain ⟨l0, d0, cs', heq, hfr⟩ := syncItems_ddir share denied rest sp dp
          (setD cs a (.dlink (.into (sp ++ [a]))))
        simp only [createSymlinkStep, hfa, heq] at hrun
        obtain ⟨rfl, rfl, rfl⟩ : (dp ++ [a]) :: l0 = l ∧ d0 = d ∧
            Cursor.node (DNode.ddir cs') = st' := by
          simpa [Prod.ext_iff] using hrun
        have hfda : findD cs' a = some (.dlink (.into (sp ++ [a]))) := by
          rw [hfr a hka]
          exact findD_setD_self cs a _
        have hlk : share.lookup (sp ++ [a]) = some .sfile :=
          hfind a .sfile (findK_self a .sfile rest)
        have hex2 : curExists share (childCursor (.node (.ddir cs')) a) = true := by
          simp [childCursor, hfda, curExists, tgtExists, hlk]
        rw [if_pos hex2]
        exact syncItems_idem share denied rest sp dp
          (setD cs a (.dlink (.into (sp ++ [a])))) hwfr hfind' l0 d0 _ heq
      | some n =>
        obtain ⟨l0, d0, cs', heq, hfr⟩ := syncItems_ddir share denied rest sp dp cs
        simp only [createSymlinkStep, hfa, heq] at hrun
        obtain ⟨rfl, rfl, rfl⟩ : l0 = l ∧ d0 = d ∧
            Cursor.node (DNode.ddir cs') = st' := by
          simpa [Prod.ext_iff] using hrun
        have hfda : findD cs' a = some n := by
          rw [hfr a hka]
          exact hfa
        have hcc : childCursor (.node (.ddir cs')) a =
            childCursor (.node (.ddir cs)) a := childCursor_congr (by rw [hfda, hfa])
        rw [if_neg (fun h => hex (by rwa [hcc] at h))]
        simp only [createSymlinkStep, hfda]
        rw [syncItems_idem share denied rest sp dp cs hwfr hfind' l0 d0 _ heq]
        rfl
  | .cons a (.sdir ks) rest, sp, dp, cs, hwfk, hfind, l, d, st', hrun => by
    obtain ⟨hka, hwfc, hwfr⟩ := wfK_parts hwfk
    have hfind' := hfind_tail hka hfind
    have hspc : share.lookup (sp ++ [a]) = some (.sdir ks) :=
      hfind a (.sdir ks) (findK_self a (.sdir ks) rest)
    simp only [syncItems] at hrun ⊢
    rcases hd : syncDir share denied (.sdir ks) (sp ++ [a]) (dp ++ [a])
        (childCursor (.node (.ddir cs)) a) with ⟨l1, d1, e⟩
    rw [hd] at hrun
    have hchild := syncDir_idem share denied (.sdir ks) (sp ++ [a]) (dp ++ [a])
      (childCursor (.node (.ddir cs)) a) hwfc hspc l1 d1 e hd
    cases e with
    | some n =>
      obtain ⟨l0, d0, cs', heq, hfr⟩ := syncItems_ddir share denied rest sp dp
        (setD cs a n)
      simp only [updChild, heq] at hrun
      obtain ⟨rfl, rfl, rfl⟩ : l1 ++ l0 = l ∧ d1 ++ d0 = d ∧
          Cursor.node (DNode.ddir cs') = st' := by
        simpa [Prod.ext_iff] using hrun
      have hfda : findD cs' a = some n := by
        rw [hfr a hka]
        exact findD_setD_self cs a n
      have hcc2 : childCursor (.node (.ddir cs')) a = .node n := by
        simp [childCursor, hfda]
      simp only [afterCur] at hchild
      rw [hcc2, hchild]
      have hupd : updChild (.node (.ddir cs')) a (some n) = .node (.ddir cs') := by
        simp [updChild, setD_self_eq hfda]
      rw [hupd,
        syncItems_idem share denied rest sp dp (setD cs a n) hwfr hfind' l0 d0 _ heq]
      rfl
    | none =>
      obtain ⟨l0, d0, cs', heq, hfr⟩ := syncItems_ddir share denied rest sp dp cs
      simp only [updChild, heq] at hrun
      obtain ⟨rfl, rfl, rfl⟩ : l1 ++ l0 = l ∧ d1 ++ d0 = d ∧
          Cursor.node (DNode.ddir cs') = st' := by
        simpa [Prod.ext_iff] using hrun
      have hcc2 : childCursor (.node (.ddir cs')) a =
          childCursor (.node (.ddir cs)) a := childCursor_congr (hfr a hka)
      simp only [afterCur] at hchild
      rw [hcc2, hchild]
      have hupd : updChild (.node (.ddir cs')) a none = .node (.ddir cs') := by
        simp [updChild]
      rw [hupd,
        syncItems_idem share denied rest sp dp cs hwfr hfind' l0 d0 _ heq]
      rfl
end


theorem syncTop_cons_none {share : SNode} {denied : List (List String)}
    {d : String} {rest : List String} {root : DKids}
    {l2 d2 : List (List String)} {sk2 : List String} {r2 : DKids}
    (hlk : share.lookup [d] = none)
    (h2 : syncTop share denied rest root = (l2, d2, sk2, r2)) :
    syncTop share denied (d :: rest) root = (l2, d2, d :: sk2, r2) := by
  simp only [syncTop, hlk, h2]

theorem syncTop_cons_some {share : SNode} {denied : List (List String)}
    {d : String} {rest : List String} {root : DKids} {s : SNode}
    {l1 d1 l2 d2 : List (List String)} {e : Option DNode}
    {sk2 : List String} {r2 : DKids}
    (hlk : share.lookup [d] = some s)
    (hd : syncDir share denied s [d] [d] (rootCursor root d) = (l1, d1, e))
    (h2 : syncTop share denied rest (applyEntry root d e) = (l2, d2, sk2, r2)) :
    syncTop share denied (d :: rest) root = (l1 ++ l2, d1 ++ d2, sk2, r2) := by
  simp only [syncTop, hlk, hd, h2]

theorem findD_applyEntry_ne {root : DKids} {d x : String} (e : Option DNode)
    (h : x ≠ d) : findD (applyEntry root d e) x = findD root x := by
  cases e with
  | some n => exact findD_setD_ne root d x n h
  | none => rfl

theorem syncTop_keys (share : SNode) (denied : List (List String)) :
    ∀ (ns : List String) (root : DKids) (x : String), x ∉ ns →
    ∀ l dd sk r, syncTop share denied ns root = (l, dd, sk, r) →
    findD r x = findD root x
  | [], root, x, hx, l, dd, sk, r, hrun => by
    obtain ⟨rfl, rfl, rfl, rfl⟩ : ([] : List (List String)) = l ∧
        ([] : List (List String)) = dd ∧ ([] : List String) = sk ∧ root = r := by
      simpa [syncTop, Prod.ext_iff] using hrun
    rfl
  | d :: rest, root, x, hx, l, dd, sk, r, hrun => by
    have hxd : x ≠ d := fun h => hx (h ▸ List.mem_cons_self d rest)
    have hxr : x ∉ rest := fun h => hx (List.mem_cons_of_mem d h)
    cases hlk : share.lookup [d] with
    | none =>
      rcases h2 : syncTop share denied rest root with ⟨l2, d2, sk2, r2⟩
      rw [syncTop_cons_none hlk h2] at hrun
      obtain ⟨rfl, rfl, rfl, rfl⟩ : l2 = l ∧ d2 = dd ∧ d :: sk2 = sk ∧ r2 = r := by
        simpa [Prod.ext_iff] using hrun
      exact syncTop_keys share denied rest root x hxr l2 d2 sk2 r2 h2
    | some s =>
      rcases hd : syncDir share denied s [d] [d] (rootCursor root d) with ⟨l1, d1, e⟩
      rcases h2 : syncTop share denied rest (applyEntry root d e) with ⟨l2, d2, sk2, r2⟩
      rw [syncTop_cons_some hlk hd h2] at hrun
      obtain ⟨rfl, rfl, rfl, rfl⟩ : l1 ++ l2 = l ∧ d1 ++ d2 = dd ∧
          sk2 = sk ∧ r2 = r := by
        simpa [Prod.ext_iff] using hrun
      rw [syncTop_keys share denied rest (applyEntry root d e) x hxr l2 d2 sk2 r2 h2]
      exact findD_applyEntry_ne e hxd

theorem syncTop_idem (share : SNode) (denied : List (List String))
    (hwf : share.wf = true) :
    ∀ (ns : List String), ns.Nodup → ∀ (root : DKids) l dd sk r,
      syncTop share denied ns root = (l, dd, sk, r) →
      syncTop share denied ns r = ([], [], sk, r)
  | [], _, root, l, dd, sk, r, hrun => by
    obtain ⟨rfl, rfl, rfl, rfl⟩ : ([] : List (List String)) = l ∧
        ([] : List (List String)) = dd ∧ ([] : List String) = sk ∧ root = r := by
      simpa [syncTop, Prod.ext_iff] using hrun
    rfl
  | d :: rest, hnd, root, l, dd, sk, r, hrun => by
    have hdr : d ∉ rest := (List.nodup_cons.mp hnd).1
    have hndr : rest.Nodup := (List.nodup_cons.mp hnd).2
    cases hlk : share.lookup [d] with
    | none =>
      rcases h2 : syncTop share denied rest root with ⟨l2, d2, sk2, r2⟩
      rw [syncTop_cons_none hlk h2] at hrun
      obtain ⟨rfl, rfl, rfl, rfl⟩ : l2 = l ∧ d2 = dd ∧ d :: sk2 = sk ∧ r2 = r := by
        simpa [Prod.ext_iff] using hrun
      exact syncTop_cons_none hlk
        (syncTop_idem share denied hwf rest hndr root l2 d2 sk2 r2 h2)
    | some s =>
      have hswf : s.wf = true := wf_lookup hwf hlk
      rcases hd : syncDir share denied s [d] [d] (rootCursor root d) with ⟨l1, d1, e⟩
      rcases h2 : syncTop share denied rest (applyEntry root d e) with ⟨l2, d2, sk2, r2⟩
      rw [syncTop_cons_some hlk hd h2] at hrun
      obtain ⟨rfl, rfl, rfl, rfl⟩ : l1 ++ l2 = l ∧ d1 ++ d2 = dd ∧
          sk2 = sk ∧ r2 = r := by
        simpa [Prod.ext_iff] using hrun
      have hchild := syncDir_idem share denied s [d] [d] (rootCursor root d)
        hswf hlk l1 d1 e hd
      have hkeys := syncTop_keys share denied rest (applyEntry root d e) d hdr
        l2 d2 sk2 r2 h2
      have hidem := syncTop_idem share denied hwf rest hndr
        (applyEntry root d e) l2 d2 sk2 r2 h2
      cases e with
      | some n =>
        have hfr : findD r2 d = some n := by
          rw [hkeys]
          simp [applyEntry, findD_setD_self]
        have hcc : rootCursor r2 d = Cursor.node n := by
          simp [rootCursor, hfr]
        simp only [afterCur] at hchild
        have happ : applyEntry r2 d (some n) = r2 := by
          simp [applyEntry, setD_self_eq hfr]
        have := syncTop_cons_some hlk (hcc ▸ hchild) (happ ▸ hidem)
        simpa [happ] using this
      | none =>
        have hfr : findD r2 d = findD root d := by
          rw [hkeys]
          simp [applyEntry]
        have hcc : rootCursor r2 d = rootCursor root d := by
          simp [rootCursor, hfr]
        simp only [afterCur] at hchild
        have happ : applyEntry r2 d none = r2 := rfl
        have := syncTop_cons_some hlk (hcc ▸ hchild) (happ ▸ hidem)
        simpa using this

/-- Claim C3: running `create_symlinks` twice in a row with the source tree
unchanged produces an empty outcome on the second run — the second run creates
no new symbolic links and no new directories, and it leaves the destination
tree exactly as the first run left it. -/
theorem claim_C3_idempotent (share? : Option SNode) (denied : List (List String))
    (root : DKids) (hwf : ∀ sh, share? = some sh → sh.wf = true) :
    (createSymlinks share? denied (createSymlinks share? denied root).2).1.links = [] ∧
    (createSymlinks share? denied (createSymlinks share? denied root).2).1.dirs = [] ∧
    (createSymlinks share? denied (createSymlinks share? denied root).2).2 =
      (createSymlinks share? denied root).2 := by
  cases share? with
  | none => exact ⟨rfl, rfl, rfl⟩
  | some sh =>
    have hshwf : sh.wf = true := hwf sh rfl
    rcases h1 : syncTop sh denied targetDirectories root with ⟨l, dd, sk, r⟩
    have h2 := syncTop_idem sh denied hshwf targetDirectories
      (by decide) root l dd sk r h1
    simp [createSymlinks, h1, h2]

/-- Witness for C3: the idempotence theorem applied at a concrete share tree,
an empty denial set and an empty destination. -/
theorem claim_C3_idempotent_witness :
    (createSymlinks (some exShare) [] (createSymlinks (some exShare) [] .dnil).2).1.links = [] ∧
    (createSymlinks (some exShare) [] (createSymlinks (some exShare) [] .dnil).2).1.dirs = [] ∧
    (createSymlinks (some exShare) [] (createSymlinks (some exShare) [] .dnil).2).2 =
      (createSymlinks (some exShare) [] .dnil).2 :=
  claim_C3_idempotent (some exShare) [] .dnil (fun sh h => by cases h; rfl)

mutual
theorem extN_refl : ∀ (n : DNode), ExtN n n
  | .dfile => .file
  | .dlink t => .link t
  | .ddir cs => .dir (extK_refl cs)
theorem extK_refl : ∀ (cs : DKids), ExtK cs cs
  | .dnil => .nil .dnil
  | .dcons a n rest => .cons (extN_refl n) (extK_refl rest)
end

mutual
theorem extN_trans : ∀ {c b a : DNode}, ExtN c b → ExtN b a → ExtN c a
  | _, _, _, .file, .file => .file
  | _, _, _, .link t, .link _ => .link t
  | _, _, _, .dir h1, .dir h2 => .dir (extK_trans h1 h2)
theorem extK_trans : ∀ {c b a : DKids}, ExtK c b → ExtK b a → ExtK c a
  | _, _, _, _, .nil _ => .nil _
  | _, _, _, .cons hn2 hk2, .cons hn1 hk1 =>
    .cons (extN_trans hn2 hn1) (extK_trans hk2 hk1)
end

theorem extK_findD : ∀ {cs' cs : DKids}, ExtK cs' cs → ∀ {a : String} {n : DNode},
    findD cs a = some n → ∃ n', findD cs' a = some n' ∧ ExtN n' n
  | _, _, .nil _, a, n, h => by simp [findD] at h
  | _, _, @ExtK.cons b m m' rest' rest hn hk, a, n, h => by
    simp only [findD] at h ⊢
    by_cases hb : b = a
    · rw [if_pos hb] at h ⊢
      obtain rfl : m = n := by injection h
      exact ⟨m', rfl, hn⟩
    · rw [if_neg hb] at h ⊢
      exact extK_findD hk h

theorem extK_setD_new : ∀ {cs : DKids} {a : String} (n : DNode),
    findD cs a = none → ExtK (setD cs a n) cs
  | .dnil, _, n, _ => .nil _
  | .dcons b m rest, a, n, h => by
    simp only [findD] at h
    by_cases hb : b = a
    · rw [if_pos hb] at h
      cases h
    · rw [if_neg hb] at h
      simp only [setD, if_neg hb]
      exact .cons (extN_refl m) (extK_setD_new n h)

theorem extK_setD_upd : ∀ {cs : DKids} {a : String} {m n : DNode},
    findD cs a = some m → ExtN n m → ExtK (setD cs a n) cs
  | .dnil, a, m, n, h, he => by simp [findD] at h
  | .dcons b m' rest, a, m, n, h, he => by
    simp only [findD] at h
    by_cases hb : b = a
    · rw [if_pos hb] at h
      obtain rfl : m' = m := by injection h
      simp only [setD, if_pos hb]
      exact .cons he (extK_refl rest)
    · rw [if_neg hb] at h
      simp only [setD, if_neg hb]
      exact .cons (extN_refl m') (extK_setD_upd h he)

theorem phys_nil (n : DNode) : n.phys [] = some n := by
  cases n <;> rfl

theorem extN_phys : ∀ (p : List String) {n' n : DNode}, ExtN n' n →
    ∀ {m : DNode}, DNode.phys n p = some m →
    ∃ m', DNode.phys n' p = some m' ∧ ExtN m' m
  | [], n', n, he, m, h => by
    obtain rfl : n = m := by
      simpa [phys_nil] using h
    exact ⟨n', phys_nil n', he⟩
  | a :: p, n', n, he, m, h => by
    cases he with
    | file => simp [DNode.phys] at h
    | link t => simp [DNode.phys] at h
    | @dir cs2 cs1 hk =>
      simp only [DNode.phys] at h ⊢
      cases hf : findD cs1 a with
      | none => rw [hf] at h; cases h
      | some c =>
        rw [hf] at h
        obtain ⟨c', hf', hec⟩ := extK_findD hk hf
        rw [hf']
        exact extN_phys p hec h

theorem extN_kind {n' n : DNode} (h : ExtN n' n) :
    kindOf n' = kindOf n ∧ linkTgtOf n' = linkTgtOf n := by
  cases h <;> exact ⟨rfl, rfl⟩

mutual
theorem syncDir_ext (share : SNode) (denied : List (List String)) :
    ∀ (s : SNode) (sp dp : List String) (n0 : DNode) (l d : List (List String))
      (e : Option DNode), syncDir share denied s sp dp (.node n0) = (l, d, e) →
      ∃ n', e = some n' ∧ ExtN n' n0
  | .sfile, sp, dp, n0, l, d, e, hrun => by
    simp only [syncDir] at hrun
    split at hrun
    · have h3 := proj22 hrun
      refine ⟨n0, ?_, extN_refl n0⟩
      simpa using h3.symm
    · have h3 := proj22 hrun
      refine ⟨n0, ?_, extN_refl n0⟩
      simpa using h3.symm
  | .sdir items, sp, dp, n0, l, d, e, hrun => by
    simp only [syncDir] at hrun
    split at hrun
    · split at hrun
      · have h3 := proj22 hrun
        refine ⟨n0, ?_, extN_refl n0⟩
        simpa using h3.symm
      · cases n0 with
        | ddir cs =>
          rcases hit : syncItems share denied items sp dp (.node (.ddir cs))
            with ⟨l0, d0, st0⟩
          rw [hit] at hrun
          obtain ⟨cs', hst, hext⟩ :=
            syncItems_ext share denied items sp dp cs l0 d0 st0 hit
          subst hst
          have h3 := proj22 hrun
          refine ⟨.ddir cs', ?_, .dir hext⟩
          simpa using h3.symm
        | dfile =>
          rw [syncItems_inert share denied items sp dp _ (by rfl)] at hrun
          have h3 := proj22 hrun
          refine ⟨.dfile, ?_, extN_refl _⟩
          simpa using h3.symm
        | dlink t =>
          rw [syncItems_inert share denied items sp dp _ (by rfl)] at hrun
          have h3 := proj22 hrun
          refine ⟨.dlink t, ?_, extN_refl _⟩
          simpa using h3.symm
    · have h3 := proj22 hrun
      refine ⟨n0, ?_, extN_refl n0⟩
      simpa using h3.symm

theorem syncItems_ext (share : SNode) (denied : List (List String)) :
    ∀ (items : SKids) (sp dp : List String) (cs : DKids)
      (l d : List (List String)) (st' : Cursor),
      syncItems share denied items sp dp (.node (.ddir cs)) = (l, d, st') →
      ∃ cs', st' = .node (.ddir cs') ∧ ExtK cs' cs
  | .nil, sp, dp, cs, l, d, st', hrun => by
    have h3 := proj22 hrun
    exact ⟨cs, by simpa using h3.symm, extK_refl cs⟩
  | .cons a .sfile rest, sp, dp, cs, l, d, st', hrun => by
    simp only [syncItems] at hrun
    split at hrun
    · exact syncItems_ext share denied rest sp dp cs _ _ _ hrun
    · cases hfa : findD cs a with
      | none =>
        simp only [createSymlinkStep, hfa] at hrun
        rcases hr : syncItems share denied rest sp dp
            (.node (.ddir (setD cs a (.dlink (.into (sp ++ [a])))))) with ⟨l2, d2, st2⟩
        rw [hr] at hrun
        obtain ⟨cs', hst, hext⟩ :=
          syncItems_ext share denied rest sp dp _ l2 d2 st2 hr
        have h3 := proj22 hrun
        refine ⟨cs', by simpa [hst] using h3.symm,
          extK_trans hext (extK_setD_new _ hfa)⟩
      | some n =>
        simp only [createSymlinkStep, hfa] at hrun
        exact syncItems_ext share denied rest sp dp cs _ _ _ hrun
  | .cons a (.sdir ks) rest, sp, dp, cs, l, d, st', hrun => by
    simp only [syncItems] at hrun
    rcases hd : syncDir share denied (.sdir ks) (sp ++ [a]) (dp ++ [a])
        (childCursor (.node (.ddir cs)) a) with ⟨l1, d1, e⟩
    rw [hd] at hrun
    have hstep : ∃ cs1, updChild (.node (.ddir cs)) a e = .node (.ddir cs1) ∧
        ExtK cs1 cs := by
      cases hfa : findD cs a with
      | some dn =>
        have hcc : childCursor (.node (.ddir cs)) a = .node dn := by
          simp [childCursor, hfa]
        rw [hcc] at hd
        obtain ⟨n', rfl, hext⟩ :=
          syncDir_ext share denied (.sdir ks) (sp ++ [a]) (dp ++ [a]) dn l1 d1 e hd
        exact ⟨setD cs a n', rfl, extK_setD_upd hfa hext⟩
      | none =>
        cases e with
        | some n' => exact ⟨setD cs a n', rfl, extK_setD_new n' hfa⟩
        | none => exact ⟨cs, rfl, extK_refl cs⟩
    obtain ⟨cs1, hupd, hext1⟩ := hstep
    rw [hupd] at hrun
    rcases hr : syncItems share denied rest sp dp (.node (.ddir cs1)) with ⟨l2, d2, st2⟩
    rw [hr] at hrun
    obtain ⟨cs', hst, hext2⟩ := syncItems_ext share denied rest sp dp cs1 l2 d2 st2 hr
    have h3 := proj22 hrun
    exact ⟨cs', by simpa [hst] using h3.symm, extK_trans hext2 hext1⟩
end

theorem syncTop_ext (share : SNode) (denied : List (List String)) :
    ∀ (ns : List String) (root : DKids) l dd sk r,
      syncTop share denied ns root = (l, dd, sk, r) → ExtK r root
  | [], root, l, dd, sk, r, hrun => by
    obtain ⟨rfl, rfl, rfl, rfl⟩ : ([] : List (List String)) = l ∧
        ([] : List (List String)) = dd ∧ ([] : List String) = sk ∧ root = r := by
      simpa [syncTop, Prod.ext_iff] using hrun
    exact extK_refl root
  | d :: rest, root, l, dd, sk, r, hrun => by
    cases hlk : share.lookup [d] with
    | none =>
      rcases h2 : syncTop share denied rest root with ⟨l2, d2, sk2, r2⟩
      rw [syncTop_cons_none hlk h2] at hrun
      obtain ⟨rfl, rfl, rfl, rfl⟩ : l2 = l ∧ d2 = dd ∧ d :: sk2 = sk ∧ r2 = r := by
        simpa [Prod.ext_iff] using hrun
      exact syncTop_ext share denied rest root l2 d2 sk2 r2 h2
    | some s =>
      rcases hd : syncDir share denied s [d] [d] (rootCursor root d) with ⟨l1, d1, e⟩
      rcases h2 : syncTop share denied rest (applyEntry root d e) with ⟨l2, d2, sk2, r2⟩
      rw [syncTop_cons_some hlk hd h2] at hrun
      obtain ⟨rfl, rfl, rfl, rfl⟩ : l1 ++ l2 = l ∧ d1 ++ d2 = dd ∧
          sk2 = sk ∧ r2 = r := by
        simpa [Prod.ext_iff] using hrun
      have hstep : ExtK (applyEntry root d e) root := by
        cases hfa : findD root d with
        | some n0 =>
          have hcc : rootCursor root d = .node n0 := by simp [rootCursor, hfa]
          rw [hcc] at hd
          obtain ⟨n', rfl, hext⟩ :=
            syncDir_ext share denied s [d] [d] n0 l1 d1 e hd
          exact extK_setD_upd hfa hext
        | none =>
          cases e with
          | some n' => exact extK_setD_new n' hfa
          | none => exact extK_refl root
      exact extK_trans
        (syncTop_ext share denied rest (applyEntry root d e) l2 d2 sk2 r2 h2) hstep

/-- Claim C4: every destination entry (file, directory or symbolic link) that
exists before a `create_symlinks` run still exists afterwards with the same
type and, for a link, the same target: the walk resolves existence through
links and only skips or adds entries, it never overwrites or retypes a
pre-existing one. -/
theorem claim_C4_destination_preserved (share? : Option SNode)
    (denied : List (List String)) (root : DKids) (p : List String) (n : DNode)
    (h : physAt root p = some n) :
    ∃ n', physAt (createSymlinks share? denied root).2 p = some n' ∧
      kindOf n' = kindOf n ∧ linkTgtOf n' = linkTgtOf n := by
  cases share? with
  | none => exact ⟨n, h, rfl, rfl⟩
  | some sh =>
    rcases h1 : syncTop sh denied targetDirectories root with ⟨l, dd, sk, r⟩
    have hext : ExtK r root :=
      syncTop_ext sh denied targetDirectories root l dd sk r h1
    have hroot : (createSymlinks (some sh) denied root).2 = r := by
      simp [createSymlinks, h1]
    cases p with
    | nil => simp [physAt] at h
    | cons a q =>
      simp only [physAt] at h ⊢
      cases hf : findD root a with
      | none => rw [hf] at h; cases h
      | some c =>
        rw [hf] at h
        obtain ⟨c', hf', hec⟩ := extK_findD hext hf
        rw [hroot, hf']
        obtain ⟨m', hm', hext'⟩ := extN_phys q hec h
        exact ⟨m', hm', (extN_kind hext').1, (extN_kind hext').2⟩

/-- Witness for C4: a destination holding a plain directory, a plain file, a
broken link, a share link and an outside link keeps the broken link at `input`
(same kind, same target) across a run. -/
theorem claim_C4_destination_preserved_witness :
    ∃ n', physAt (createSymlinks (some exShare) [] exRootMixed).2 ["input"] = some n' ∧
      kindOf n' = kindOf (.dlink .dead) ∧ linkTgtOf n' = linkTgtOf (.dlink .dead) :=
  claim_C4_destination_preserved (some exShare) [] exRootMixed ["input"]
    (.dlink .dead) rfl

theorem syncTop_nolookup (share : SNode) (denied : List (List String))
    (d : String) (hlkd : share.lookup [d] = none) :
    ∀ (ns : List String) (root : DKids) l dd sk r,
      syncTop share denied ns root = (l, dd, sk, r) → findD r d = findD root d
  | [], root, l, dd, sk, r, hrun => by
    obtain ⟨rfl, rfl, rfl, rfl⟩ : ([] : List (List String)) = l ∧
        ([] : List (List String)) = dd ∧ ([] : List String) = sk ∧ root = r := by
      simpa [syncTop, Prod.ext_iff] using hrun
    rfl
  | x :: rest, root, l, dd, sk, r, hrun => by
    cases hlk : share.lookup [x] with
    | none =>
      rcases h2 : syncTop share denied rest root with ⟨l2, d2, sk2, r2⟩
      rw [syncTop_cons_none hlk h2] at hrun
      obtain ⟨rfl, rfl, rfl, rfl⟩ : l2 = l ∧ d2 = dd ∧ x :: sk2 = sk ∧ r2 = r := by
        simpa [Prod.ext_iff] using hrun
      exact syncTop_nolookup share denied d hlkd rest root l2 d2 sk2 r2 h2
    | some s =>
      have hxd : d ≠ x := fun h => by
        rw [h] at hlkd
        rw [hlkd] at hlk
        cases hlk
      rcases hd : syncDir share denied s [x] [x] (rootCursor root x) with ⟨l1, d1, e⟩
      rcases h2 : syncTop share denied rest (applyEntry root x e) with ⟨l2, d2, sk2, r2⟩
      rw [syncTop_cons_some hlk hd h2] at hrun
      obtain ⟨rfl, rfl, rfl, rfl⟩ : l1 ++ l2 = l ∧ d1 ++ d2 = dd ∧
          sk2 = sk ∧ r2 = r := by
        simpa [Prod.ext_iff] using hrun
      rw [syncTop_nolookup share denied d hlkd rest (applyEntry root x e)
          l2 d2 sk2 r2 h2]
      exact findD_applyEntry_ne e hxd

theorem syncTop_skipped (share : SNode) (denied : List (List String))
    (d : String) (hlkd : share.lookup [d] = none) :
    ∀ (ns : List String) (root : DKids) l dd sk r, d ∈ ns →
      syncTop share denied ns root = (l, dd, sk, r) → d ∈ sk
  | [], root, l, dd, sk, r, hmem, _ => absurd hmem (List.not_mem_nil d)
  | x :: rest, root, l, dd, sk, r, hmem, hrun => by
    cases hlk : share.lookup [x] with
    | none =>
      rcases h2 : syncTop share denied rest root with ⟨l2, d2, sk2, r2⟩
      rw [syncTop_cons_none hlk h2] at hrun
      obtain ⟨rfl, rfl, rfl, rfl⟩ : l2 = l ∧ d2 = dd ∧ x :: sk2 = sk ∧ r2 = r := by
        simpa [Prod.ext_iff] using hrun
      by_cases hxd : d = x
      · exact hxd ▸ List.mem_cons_self x sk2
      · exact List.mem_cons_of_mem x
          (syncTop_skipped share denied d hlkd rest root l2 d2 sk2 r2
            ((List.mem_cons.mp hmem).resolve_left hxd) h2)
  -- a name with an existing share subtree cannot be the skipped one
    | some s =>
      have hxd : d ≠ x := fun h => by
        rw [h] at hlkd
        rw [hlkd] at hlk
        cases hlk
      rcases hd : syncDir share denied s [x] [x] (rootCursor root x) with ⟨l1, d1, e⟩
      rcases h2 : syncTop share denied rest (applyEntry root x e) with ⟨l2, d2, sk2, r2⟩
      rw [syncTop_cons_some hlk hd h2] at hrun
      obtain ⟨rfl, rfl, rfl, rfl⟩ : l1 ++ l2 = l ∧ d1 ++ d2 = dd ∧
          sk2 = sk ∧ r2 = r := by
        simpa [Prod.ext_iff] using hrun
      exact syncTop_skipped share denied d hlkd rest (applyEntry root x e)
        l2 d2 sk2 r2 ((List.mem_cons.mp hmem).resolve_left hxd) h2

/-- Claim C8: when the share root does not exist, `create_symlinks` is a
warned no-op — nothing is mutated and the outcome is empty; when the share
subtree of one configured top-level name does not exist, the name is recorded
as skipped and no destination entry is created or changed for it. -/
theorem claim_C8_missing_source (share? : Option SNode)
    (denied : List (List String)) (root : DKids) (d : String) :
    (share? = none → createSymlinks share? denied root = (⟨[], [], []⟩, root)) ∧
    (∀ sh, share? = some sh → d ∈ targetDirectories → sh.lookup [d] = none →
      d ∈ (createSymlinks share? denied root).1.skipped ∧
      findD (createSymlinks share? denied root).2 d = findD root d) := by
  constructor
  · intro h
    subst h
    rfl
  · intro sh hsh hmem hlk
    subst hsh
    rcases h1 : syncTop sh denied targetDirectories root with ⟨l, dd, sk, r⟩
    have hsk := syncTop_skipped sh denied d hlk targetDirectories root
      l dd sk r hmem h1
    have hfr := syncTop_nolookup sh denied d hlk targetDirectories root
      l dd sk r h1
    constructor
    · simpa [createSymlinks, h1] using hsk
    · simpa [createSymlinks, h1] using hfr

/-- Witness for C8: with the example share (which has no `custom_nodes`
subtree), the name is skipped and the pre-existing destination entry at that
name is untouched; a missing share root is a no-op. -/
theorem claim_C8_missing_source_witness :
    (createSymlinks none [] exRootMixed = (⟨[], [], []⟩, exRootMixed)) ∧
    "custom_nodes" ∈ (createSymlinks (some exShare) [] exRootMixed).1.skipped ∧
    findD (createSymlinks (some exShare) [] exRootMixed).2 "custom_nodes" =
      findD exRootMixed "custom_nodes" :=
  ⟨(claim_C8_missing_source none [] exRootMixed "custom_nodes").1 rfl,
   (claim_C8_missing_source (some exShare) [] exRootMixed "custom_nodes").2
     exShare rfl (by decide) rfl⟩

theorem keyFreeD_removeD : ∀ {cs : DKids} {a b : String},
    cs.keyFreeD a = true → (removeD cs b).keyFreeD a = true
  | .dnil, _, _, _ => rfl
  | .dcons c m rest, a, b, h => by
    simp only [DKids.keyFreeD, Bool.and_eq_true] at h
    simp only [removeD]
    by_cases hc : c = b
    · rw [if_pos hc]
      exact h.2
    · rw [if_neg hc]
      simp only [DKids.keyFreeD, Bool.and_eq_true]
      exact ⟨h.1, keyFreeD_removeD h.2⟩

theorem nodupKeys_removeD : ∀ {cs : DKids} {b : String},
    cs.nodupKeys = true → (removeD cs b).nodupKeys = true
  | .dnil, _, _ => rfl
  | .dcons c m rest, b, h => by
    simp only [DKids.nodupKeys, Bool.and_eq_true] at h
    simp only [removeD]
    by_cases hc : c = b
    · rw [if_pos hc]
      exact h.2
    · rw [if_neg hc]
      simp only [DKids.nodupKeys, Bool.and_eq_true]
      exact ⟨keyFreeD_removeD h.1, nodupKeys_removeD h.2⟩

theorem removeTop_spec (unlinkDenied : List String) :
    ∀ (ns : List String) (root : DKids), ns.Nodup → root.nodupKeys = true →
      (removeTop unlinkDenied ns root).1 =
        ns.filter (fun d => isLinkName root d && !(decide (d ∈ unlinkDenied))) ∧
      ∀ x, findD (removeTop unlinkDenied ns root).2 x =
        (if x ∈ ns ∧ isLinkName root x = true ∧ x ∉ unlinkDenied then none
         else findD root x)
  | [], root, hnd, hwf => by
    refine ⟨rfl, fun x => ?_⟩
    rw [if_neg (fun h => (List.not_mem_nil x) h.1)]
    rfl
  | d :: rest, root, hnd, hwf => by
    have hdr : d ∉ rest := (List.nodup_cons.mp hnd).1
    have hndr : rest.Nodup := (List.nodup_cons.mp hnd).2
    simp only [removeTop]
    cases hL : isLinkName root d with
    | false =>
      rw [if_neg (by simp [hL])]
      obtain ⟨ih1, ih2⟩ := removeTop_spec unlinkDenied rest root hndr hwf
      refine ⟨by rw [ih1, List.filter_cons_of_neg (by simp [hL])], fun x => ?_⟩
      rw [ih2 x]
      by_cases hx : x = d
      · subst hx
        rw [if_neg (fun h => hdr h.1), if_neg (fun h => by
          rcases List.mem_cons.mp h.1 with h' | h'
          · rw [hL] at h; exact Bool.false_ne_true h.2.1
          · exact hdr h')]
      · by_cases hmem : x ∈ rest ∧ isLinkName root x = true ∧ x ∉ unlinkDenied
        · rw [if_pos hmem, if_pos ⟨List.mem_cons_of_mem d hmem.1, hmem.2⟩]
        · rw [if_neg hmem, if_neg (fun h => hmem
            ⟨(List.mem_cons.mp h.1).resolve_left hx, h.2⟩)]
    | true =>
      by_cases hden : d ∈ unlinkDenied
      · rw [if_pos (by simp [hL]), if_pos hden]
        obtain ⟨ih1, ih2⟩ := removeTop_spec unlinkDenied rest root hndr hwf
        refine ⟨by rw [ih1, List.filter_cons_of_neg (by simp [hden])], fun x => ?_⟩
        rw [ih2 x]
        by_cases hx : x = d
        · subst hx
          rw [if_neg (fun h => hdr h.1), if_neg (fun h => h.2.2 hden)]
        · by_cases hmem : x ∈ rest ∧ isLinkName root x = true ∧ x ∉ unlinkDenied
          · rw [if_pos hmem, if_pos ⟨List.mem_cons_of_mem d hmem.1, hmem.2⟩]
          · rw [if_neg hmem, if_neg (fun h => hmem
              ⟨(List.mem_cons.mp h.1).resolve_left hx, h.2⟩)]
      · rw [if_pos (by simp [hL]), if_neg hden]
        obtain ⟨ih1, ih2⟩ := removeTop_spec unlinkDenied rest (removeD root d) hndr
          (nodupKeys_removeD hwf)
        rcases hrt : removeTop unlinkDenied rest (removeD root d) with ⟨r1, root1⟩
        rw [hrt] at ih1 ih2
        replace ih1 : r1 = List.filter
            (fun x => isLinkName (removeD root d) x && !(decide (x ∈ unlinkDenied)))
            rest := ih1
        replace ih2 : ∀ x, findD root1 x =
            (if x ∈ rest ∧ isLinkName (removeD root d) x = true ∧ x ∉ unlinkDenied
             then none else findD (removeD root d) x) := ih2
        simp only [hrt]
        refine ⟨?_, fun x => ?_⟩
        · rw [ih1, List.filter_cons_of_pos (by simp [hL, hden])]
          refine congrArg (d :: ·) (List.filter_congr fun x hx => ?_)
          have hxd : x ≠ d := fun h => hdr (h ▸ hx)
          simp only [isLinkName, findD_removeD_ne root d x hxd]
        · rw [ih2 x]
          by_cases hx : x = d
          · subst hx
            rw [if_neg (fun h => hdr h.1),
              if_pos ⟨List.mem_cons_self x rest, hL, hden⟩]
            exact findD_removeD_self hwf
          · rw [findD_removeD_ne root d x hx]
            by_cases hmem : x ∈ rest ∧ isLinkName (removeD root d) x = true ∧
                x ∉ unlinkDenied
            · rw [if_pos hmem, if_pos ⟨List.mem_cons_of_mem d hmem.1, by
                have := hmem.2.1
                rwa [isLinkName, findD_removeD_ne root d x hx] at this, hmem.2.2⟩]
            · rw [if_neg hmem, if_neg (fun h => hmem
                ⟨(List.mem_cons.mp h.1).resolve_left hx, by
                  have := h.2.1
                  rwa [isLinkName, ← findD_removeD_ne root d x hx] at this, h.2.2⟩)]

/-- Claim C7: `remove_symlinks` unlinks exactly those configured top-level
names whose destination entry is currently a symbolic link and whose unlink
does not fail; a plain (non-symlink) entry of the same name is left intact, a
denied unlink leaves its entry intact without aborting the loop (all other
names are still processed), and unconfigured names are never touched. -/
theorem claim_C7_remove_scope (root : DKids) (unlinkDenied : List String)
    (hwf : root.nodupKeys = true) :
    (removeSymlinks unlinkDenied root).1 =
      targetDirectories.filter
        (fun d => isLinkName root d && !(decide (d ∈ unlinkDenied))) ∧
    (∀ d, d ∈ targetDirectories → isLinkName root d = true → d ∉ unlinkDenied →
      findD (removeSymlinks unlinkDenied root).2 d = none) ∧
    (∀ d, isLinkName root d = false →
      findD (removeSymlinks unlinkDenied root).2 d = findD root d) ∧
    (∀ d, d ∈ unlinkDenied →
      findD (removeSymlinks unlinkDenied root).2 d = findD root d) ∧
    (∀ x, x ∉ targetDirectories →
      findD (removeSymlinks unlinkDenied root).2 x = findD root x) := by
  obtain ⟨h1, h2⟩ := removeTop_spec unlinkDenied targetDirectories root
    (by decide) hwf
  refine ⟨h1, fun d hmem hL hden => ?_, fun d hL => ?_, fun d hden => ?_,
    fun x hx => ?_⟩
  · rw [removeSymlinks, h2 d, if_pos ⟨hmem, hL, hden⟩]
  · rw [removeSymlinks, h2 d,
      if_neg (fun h => by rw [hL] at h; exact Bool.false_ne_true h.2.1)]
  · rw [removeSymlinks, h2 d, if_neg (fun h => h.2.2 hden)]
  · rw [removeSymlinks, h2 x, if_neg (fun h => hx h.1)]

/-- Witness for C7: on the mixed example destination (a plain directory at
`models`, a plain file at `custom_nodes`, links at `input`, `output`, `user`)
with the unlink of `output` denied, exactly `input` and `user` are removed,
the denied and plain entries stay, and an unconfigured name stays. -/
theorem claim_C7_remove_scope_witness :
    (removeSymlinks ["output"] exRootMixed).1 =
      targetDirectories.filter
        (fun d => isLinkName exRootMixed d && !(decide (d ∈ ["output"]))) ∧
    findD (removeSymlinks ["output"] exRootMixed).2 "input" = none ∧
    findD (removeSymlinks ["output"] exRootMixed).2 "models" =
      findD exRootMixed "models" ∧
    findD (removeSymlinks ["output"] exRootMixed).2 "output" =
      findD exRootMixed "output" :=
  have h := claim_C7_remove_scope exRootMixed ["output"] (by decide)
  ⟨h.1, h.2.1 "input" (by decide) rfl (by decide), h.2.2.1 "models" rfl,
   h.2.2.2.1 "output" (by decide)⟩

/-- Claim C10: `list_symlinks` and `remove_symlinks` decide membership solely
by `is_symlink` on the top-level destination entry — for any link target `t`,
including a broken target or one outside the share tree, the name is listed
and removed; the resolved target is never inspected. -/
theorem claim_C10_membership_by_symlink (root : DKids)
    (hwf : root.nodupKeys = true) (d : String) (hd : d ∈ targetDirectories)
    (t : LTgt) (h : findD root d = some (.dlink t)) :
    d ∈ listSymlinks root ∧
    d ∈ (removeSymlinks [] root).1 ∧
    findD (removeSymlinks [] root).2 d = none := by
  have hL : isLinkName root d = true := by simp [isLinkName, h]
  obtain ⟨h1, h2⟩ := removeTop_spec [] targetDirectories root (by decide) hwf
  refine ⟨?_, ?_, ?_⟩
  · exact List.mem_filter.mpr ⟨hd, hL⟩
  · rw [removeSymlinks, h1]
    exact List.mem_filter.mpr ⟨hd, by simp [hL]⟩
  · rw [removeSymlinks, h2 d,
      if_pos ⟨hd, hL, List.not_mem_nil d⟩]

/-- Witness for C10: the `user` entry of the mixed example destination is a
link to a target outside both trees; it is listed and removed regardless. -/
theorem claim_C10_membership_by_symlink_witness :
    "user" ∈ listSymlinks exRootMixed ∧
    "user" ∈ (removeSymlinks [] exRootMixed).1 ∧
    findD (removeSymlinks [] exRootMixed).2 "user" = none :=
  claim_C10_membership_by_symlink exRootMixed (by decide) "user" (by decide)
    .far rfl

theorem infoTop_spec (share? : Option SNode) (root : DKids) :
    ∀ (ns : List String) (d : String),
      (d ∈ (infoTop share? root ns).missing ↔
        (d ∈ ns ∧ findD root d = none)) ∧
      (d ∈ (infoTop share? root ns).existing ↔
        (d ∈ ns ∧ ∃ n, findD root d = some n ∧ linkTgtOf n = none)) ∧
      (∀ t b, (d, t, b) ∈ (infoTop share? root ns).symlinks ↔
        (d ∈ ns ∧ findD root d = some (.dlink t) ∧ b = tgtExists share? t))
  | [], d => by
    refine ⟨?_, ?_, fun t b => ?_⟩ <;>
      simp [infoTop]
  | x :: ns, d => by
    obtain ⟨ih1, ih2, ih3⟩ := infoTop_spec share? root ns d
    cases hf : findD root x with
    | none =>
      simp only [infoTop, hf]
      refine ⟨?_, ?_, fun t b => ?_⟩
      · simp only [List.mem_cons, ih1]
        constructor
        · rintro (rfl | ⟨h1, h2⟩)
          · exact ⟨Or.inl rfl, hf⟩
          · exact ⟨Or.inr h1, h2⟩
        · rintro ⟨h1, h2⟩
          rcases h1 with rfl | h1
          · exact Or.inl rfl
          · exact Or.inr ⟨h1, h2⟩
      · rw [ih2]
        constructor
        · rintro ⟨h1, h2⟩
          exact ⟨List.mem_cons_of_mem x h1, h2⟩
        · rintro ⟨h1, n, h2, h3⟩
          rcases List.mem_cons.mp h1 with rfl | h1
          · rw [hf] at h2
            cases h2
          · exact ⟨h1, n, h2, h3⟩
      · rw [ih3 t b]
        constructor
        · rintro ⟨h1, h2⟩
          exact ⟨List.mem_cons_of_mem x h1, h2⟩
        · rintro ⟨h1, h2, h3⟩
          rcases List.mem_cons.mp h1 with rfl | h1
          · rw [hf] at h2
            cases h2
          · exact ⟨h1, h2, h3⟩
    | some n =>
      cases n with
      | dlink t0 =>
        simp only [infoTop, hf]
        refine ⟨?_, ?_, fun t b => ?_⟩
        · rw [ih1]
          constructor
          · rintro ⟨h1, h2⟩
            exact ⟨List.mem_cons_of_mem x h1, h2⟩
          · rintro ⟨h1, h2⟩
            rcases List.mem_cons.mp h1 with rfl | h1
            · rw [hf] at h2
              cases h2
            · exact ⟨h1, h2⟩
        · rw [ih2]
          constructor
          · rintro ⟨h1, h2⟩
            exact ⟨List.mem_cons_of_mem x h1, h2⟩
          · rintro ⟨h1, n, h2, h3⟩
            rcases List.mem_cons.mp h1 with rfl | h1
            · rw [hf] at h2
              obtain rfl : DNode.dlink t0 = n := by injection h2
              cases h3
            · exact ⟨h1, n, h2, h3⟩
        · simp only [List.mem_cons, ih3 t b]
          constructor
          · rintro (heq | ⟨h1, h2⟩)
            · obtain ⟨rfl, rfl, rfl⟩ : d = x ∧ t = t0 ∧ b = tgtExists share? t0 := by
                simpa [Prod.ext_iff] using heq
              exact ⟨Or.inl rfl, hf, rfl⟩
            · exact ⟨Or.inr h1, h2⟩
          · rintro ⟨h1, h2, h3⟩
            rcases h1 with rfl | h1
            · rw [hf] at h2
              obtain rfl : t0 = t := by injection h2 with h2; injection h2
              exact Or.inl (by rw [h3])
            · exact Or.inr ⟨h1, h2, h3⟩
      | dfile =>
        simp only [infoTop, hf]
        refine ⟨?_, ?_, fun t b => ?_⟩
        · rw [ih1]
          constructor
          · rintro ⟨h1, h2⟩
            exact ⟨List.mem_cons_of_mem x h1, h2⟩
          · rintro ⟨h1, h2⟩
            rcases List.mem_cons.mp h1 with rfl | h1
            · rw [hf] at h2
              cases h2
            · exact ⟨h1, h2⟩
        · simp only [List.mem_cons, ih2]
          constructor
          · rintro (rfl | ⟨h1, h2⟩)
            · exact ⟨Or.inl rfl, .dfile, hf, rfl⟩
            · exact ⟨Or.inr h1, h2⟩
          · rintro ⟨h1, n, h2, h3⟩
            rcases h1 with rfl | h1
            · exact Or.inl rfl
            · exact Or.inr ⟨h1, n, h2, h3⟩
        · rw [ih3 t b]
          constructor
          · rintro ⟨h1, h2⟩
            exact ⟨List.mem_cons_of_mem x h1, h2⟩
          · rintro ⟨h1, h2, h3⟩
            rcases List.mem_cons.mp h1 with rfl | h1
            · rw [hf] at h2
              cases h2
            · exact ⟨h1, h2, h3⟩
      | ddir cs =>
        simp only [infoTop, hf]
        refine ⟨?_, ?_, fun t b => ?_⟩
        · rw [ih1]
          constructor
          · rintro ⟨h1, h2⟩
            exact ⟨List.mem_cons_of_mem x h1, h2⟩
          · rintro ⟨h1, h2⟩
            rcases List.mem_cons.mp h1 with rfl | h1
            · rw [hf] at h2
              cases h2
            · exact ⟨h1, h2⟩
        · simp only [List.mem_cons, ih2]
          constructor
          · rintro (rfl | ⟨h1, h2⟩)
            · exact ⟨Or.inl rfl, .ddir cs, hf, rfl⟩
            · exact ⟨Or.inr h1, h2⟩
          · rintro ⟨h1, n, h2, h3⟩
            rcases h1 with rfl | h1
            · exact Or.inl rfl
            · exact Or.inr ⟨h1, n, h2, h3⟩
        · rw [ih3 t b]
          constructor
          · rintro ⟨h1, h2⟩
            exact ⟨List.mem_cons_of_mem x h1, h2⟩
          · rintro ⟨h1, h2, h3⟩
            rcases List.mem_cons.mp h1 with rfl | h1
            · rw [hf] at h2
              cases h2
            · exact ⟨h1, h2, h3⟩

/-- Claim C9 (amended): `get_symlink_info` classifies each configured top-level
name into exactly one of three buckets determined solely by the destination
entry — a symlink (reported with its resolution target and whether that target
currently exists), an existing plain (non-link) entry, or the
`missing_in_share` bucket, which holds exactly the names with no destination
entry at all, regardless of whether the name is present in the share tree.
The operation is a pure read: it takes the trees and returns only a report. -/
theorem claim_C9_classification (share? : Option SNode) (root : DKids)
    (d : String) (hd : d ∈ targetDirectories) :
    ((∃ t b, (d, t, b) ∈ (getSymlinkInfo share? root).symlinks) ↔
      (∃ t, findD root d = some (.dlink t))) ∧
    ((d ∈ (getSymlinkInfo share? root).existing) ↔
      (∃ n, findD root d = some n ∧ linkTgtOf n = none)) ∧
    ((d ∈ (getSymlinkInfo share? root).missing) ↔ findD root d = none) ∧
    (∀ t, findD root d = some (.dlink t) →
      (d, t, tgtExists share? t) ∈ (getSymlinkInfo share? root).symlinks) := by
  obtain ⟨h1, h2, h3⟩ := infoTop_spec share? root targetDirectories d
  refine ⟨⟨?_, ?_⟩, ⟨?_, ?_⟩, ⟨?_, ?_⟩, ?_⟩
  · rintro ⟨t, b, hm⟩
    exact ⟨t, ((h3 t b).mp hm).2.1⟩
  · rintro ⟨t, hf⟩
    exact ⟨t, tgtExists share? t, (h3 t (tgtExists share? t)).mpr ⟨hd, hf, rfl⟩⟩
  · intro hm
    exact ((h2.mp hm)).2
  · rintro ⟨n, hf, hn⟩
    exact h2.mpr ⟨hd, n, hf, hn⟩
  · intro hm
    exact (h1.mp hm).2
  · intro hf
    exact h1.mpr ⟨hd, hf⟩
  · intro t hf
    exact (h3 t (tgtExists share? t)).mpr ⟨hd, hf, rfl⟩

/-- Witness for C9 (amended): on the mixed example destination, `input` (a
broken link) lands in the symlink bucket with a non-existing target, `models`
(a plain directory) in the existing bucket, and a name absent from the
destination in the missing bucket. -/
theorem claim_C9_classification_witness :
    ("input", LTgt.dead, false) ∈ (getSymlinkInfo (some exShare) exRootMixed).symlinks ∧
    ("models" ∈ (getSymlinkInfo (some exShare) exRootMixed).existing) ∧
    ("custom_nodes" ∈ (getSymlinkInfo (some exShare) .dnil).missing) :=
  ⟨(claim_C9_classification (some exShare) exRootMixed "input" (by decide)).2.2.2
      LTgt.dead rfl,
   (claim_C9_classification (some exShare) exRootMixed "models" (by decide)).2.1.mpr
      ⟨.ddir (.dcons "x" .dfile .dnil), rfl, rfl⟩,
   (claim_C9_classification (some exShare) DKids.dnil "custom_nodes"
      (by decide)).2.2.1.mpr rfl⟩

/-- Counterexample for C9 as stated: the claim says a name is reported
"missing in share" when it is absent from the destination *while also absent
from the source*; but with a share tree that does contain `models` and an
empty destination, `get_symlink_info` still reports `models` as missing in
share — the source side is never consulted. -/
theorem claim_C9_counterexample :
    "models" ∈ (getSymlinkInfo
      (some (.sdir (.cons "models" (.sdir .nil) .nil))) .dnil).missing ∧
    SNode.lookup (.sdir (.cons "models" (.sdir .nil) .nil)) ["models"] =
      some (.sdir .nil) ∧
    ¬("models" ∈ (getSymlinkInfo
        (some (.sdir (.cons "models" (.sdir .nil) .nil))) .dnil).missing →
      SNode.lookup (.sdir (.cons "models" (.sdir .nil) .nil)) ["models"] = none) := by
  refine ⟨by decide, rfl, fun h => ?_⟩
  have := h (by decide)
  simp [SNode.lookup, findK] at this

/-- Claim C6: the link-creation primitive (`_create_symlink`) first ensures
the destination's parent directory chain exists — an existing parent directory
is reused idempotently, a missing but creatable chain is built — and then
attempts to create the symbolic link; any failure of either step (parent is a
plain file, a broken or non-directory link, an unreachable path, a write
through a link, or an entry already present at the destination name) is caught
and reported as `false` with the parent position left unchanged.  The function
is total, mirroring that `_create_symlink` never raises to its caller. -/
theorem claim_C6_create_symlink_primitive (parent : Cursor) (a : String)
    (t : LTgt) :
    ((createSymlinkStep parent a t).1 = true →
      ∃ cs, (createSymlinkStep parent a t).2 = .node (.ddir cs) ∧
        findD cs a = some (.dlink t)) ∧
    ((createSymlinkStep parent a t).1 = false →
      (createSymlinkStep parent a t).2 = parent) ∧
    ((createSymlinkStep parent a t).1 = false ↔
      ¬((∃ cs, parent = .node (.ddir cs) ∧ findD cs a = none) ∨
        parent = .free)) := by
  cases parent with
  | node n =>
    cases n with
    | ddir cs =>
      cases hf : findD cs a with
      | some m =>
        have hstep : createSymlinkStep (.node (.ddir cs)) a t =
            (false, .node (.ddir cs)) := by
          simp [createSymlinkStep, hf]
        rw [hstep]
        refine ⟨fun h => Bool.noConfusion h, fun _ => rfl, iff_of_true rfl ?_⟩
        rintro (⟨cs', heq, hnone⟩ | heq)
        · obtain rfl : cs = cs' := by
            injection heq with heq
            injection heq
          rw [hf] at hnone
          cases hnone
        · cases heq
      | none =>
        have hstep : createSymlinkStep (.node (.ddir cs)) a t =
            (true, .node (.ddir (setD cs a (.dlink t)))) := by
          simp [createSymlinkStep, hf]
        rw [hstep]
        exact ⟨fun _ => ⟨setD cs a (.dlink t), rfl, findD_setD_self cs a _⟩,
          fun h => Bool.noConfusion h,
          iff_of_false (fun h => Bool.noConfusion h)
            (not_not_intro (.inl ⟨cs, rfl, hf⟩))⟩
    | dfile =>
      refine ⟨fun h => Bool.noConfusion h, fun _ => rfl, iff_of_true rfl ?_⟩
      rintro (⟨cs', heq, _⟩ | heq) <;> cases heq
    | dlink t0 =>
      refine ⟨fun h => Bool.noConfusion h, fun _ => rfl, iff_of_true rfl ?_⟩
      rintro (⟨cs', heq, _⟩ | heq) <;> cases heq
  | free =>
    exact ⟨fun _ => ⟨.dcons a (.dlink t) .dnil, rfl, by simp [findD]⟩,
      fun h => Bool.noConfusion h,
      iff_of_false (fun h => Bool.noConfusion h) (not_not_intro (.inr rfl))⟩
  | blocked =>
    refine ⟨fun h => Bool.noConfusion h, fun _ => rfl, iff_of_true rfl ?_⟩
    rintro (⟨cs', heq, _⟩ | heq) <;> cases heq
  | thru q =>
    refine ⟨fun h => Bool.noConfusion h, fun _ => rfl, iff_of_true rfl ?_⟩
    rintro (⟨cs', heq, _⟩ | heq) <;> cases heq

/-- Witness for C6: creating below a plain-file parent fails with the parent
unchanged, while creating a fresh name below an empty directory succeeds and
stores the link. -/
theorem claim_C6_create_symlink_primitive_witness :
    ((createSymlinkStep (.node .dfile) "x" .dead).2 = .node .dfile) ∧
    (∃ cs, (createSymlinkStep (.node (.ddir .dnil)) "x"
        (.into ["models", "x"])).2 = .node (.ddir cs) ∧
      findD cs "x" = some (.dlink (.into ["models", "x"]))) :=
  ⟨(claim_C6_create_symlink_primitive (.node .dfile) "x" .dead).2.1 rfl,
   (claim_C6_create_symlink_primitive (.node (.ddir .dnil)) "x"
      (.into ["models", "x"])).1 rfl⟩

theorem hasFileK_of_fileFree : ∀ {ks : SKids},
    ks.fileFreeK = true → ks.hasFileK = false
  | .nil, _ => rfl
  | .cons b .sfile rest, h => by
    simp [SKids.fileFreeK, SNode.fileFree] at h
  | .cons b (.sdir ks2) rest, h => by
    simp only [SKids.fileFreeK, Bool.and_eq_true] at h
    simp only [SKids.hasFileK]
    exact hasFileK_of_fileFree h.2

/-- Claim C1 (amended): the single-link shortcut for a file-free source
subtree belongs to `_scan_and_link_directory` (the deep-linking walk), not to
`create_symlinks`: for every source subdirectory `sub` containing no files at
any level, scanning a source directory that lists `sub`, against a fresh
destination directory, creates exactly one symbolic link at the top of that
subtree pointing at the source subdirectory and does not descend further —
the destination ends with the single link entry and nothing below it.
`create_symlinks` itself never takes this shortcut (see the counterexample,
where it builds real directories and no link). -/
theorem claim_C1_pure_directory_shortcut (share : SNode) (sub : SNode)
    (hpure : sub.fileFree = true) (a : String) (sp dp : List String) :
    scanDir share [] (.sdir (.cons a sub .nil)) sp dp (.node (.ddir .dnil)) =
      ([dp ++ [a]],
       some (.ddir (.dcons a (.dlink (.into (sp ++ [a]))) .dnil))) := by
  cases sub with
  | sfile => simp [SNode.fileFree] at hpure
  | sdir ks =>
    have hhf : ks.hasFileK = false :=
      hasFileK_of_fileFree (by simpa [SNode.fileFree] using hpure)
    simp [scanDir, scanFiles, scanDirs, childCursor, curExists, createSymlinkStep,
      findD, setD, hhf, Cursor.phys, updChild]

/-- Witness for C1 (amended): the shortcut applied to the concrete pure
subtree `sub/inner`. -/
theorem claim_C1_pure_directory_shortcut_witness :
    scanDir exShare []
      (.sdir (.cons "sub" (.sdir (.cons "inner" (.sdir .nil) .nil)) .nil))
      ["models"] ["models"] (.node (.ddir .dnil)) =
      ([["models", "sub"]],
       some (.ddir (.dcons "sub" (.dlink (.into ["models", "sub"])) .dnil))) :=
  claim_C1_pure_directory_shortcut exShare
    (.sdir (.cons "inner" (.sdir .nil) .nil)) rfl "sub" ["models"] ["models"]

/-- Counterexample for C1 as stated: `create_symlinks` (which runs
`_sync_directory_recursive`, not `_scan_and_link_directory`) on a share whose
`models` subtree is the pure directory-of-directories `models/sub/inner`
creates no symbolic link at all — it materializes every directory as a real
destination directory and descends the whole subtree, so the claimed single
link at the top of the pure subtree does not exist. -/
theorem claim_C1_counterexample :
    (createSymlinks (some exShareC1) [] .dnil).1.links = [] ∧
    (createSymlinks (some exShareC1) [] .dnil).1.dirs =
      [["models"], ["models", "sub"], ["models", "sub", "inner"]] ∧
    physAt (createSymlinks (some exShareC1) [] .dnil).2 ["models", "sub"] =
      some (.ddir (.dcons "inner" (.ddir .dnil) .dnil)) ∧
    ¬(physAt (createSymlinks (some exShareC1) [] .dnil).2 ["models", "sub"] =
        some (.dlink (.into ["models", "sub"])) ∧
      (createSymlinks (some exShareC1) [] .dnil).1.links = [["models", "sub"]]) := by
  have c2 : physAt (createSymlinks (some exShareC1) [] .dnil).2 ["models", "sub"] =
      some (.ddir (.dcons "inner" (.ddir .dnil) .dnil)) := rfl
  refine ⟨rfl, rfl, c2, fun h => ?_⟩
  have h3 := Option.some.inj (c2.symm.trans h.1)
  exact DNode.noConfusion h3

theorem syncItems_file_linked (share : SNode) (denied : List (List String)) :
    ∀ (items : SKids) (sp dp : List String) (cs : DKids) (a : String),
      items.wfK = true → findK items a = some .sfile → findD cs a = none →
      ∃ cs', (syncItems share denied items sp dp (.node (.ddir cs))).2.2 =
          .node (.ddir cs') ∧
        findD cs' a = some (.dlink (.into (sp ++ [a])))
  | .nil, sp, dp, cs, a, _, hfk, _ => by simp [findK] at hfk
  | .cons b c rest, sp, dp, cs, a, hwfk, hfk, hfd => by
    obtain ⟨hkb, _, hwfr⟩ := wfK_parts hwfk
    simp only [findK] at hfk
    by_cases hba : b = a
    · rw [if_pos hba] at hfk
      obtain rfl : c = .sfile := by injection hfk
      subst hba
      simp only [syncItems]
      have hcc : childCursor (.node (.ddir cs)) b = .free := by
        simp [childCursor, hfd]
      rw [hcc]
      rw [if_neg (fun h => Bool.noConfusion h : ¬(curExists share Cursor.free = true))]
      have hstep : createSymlinkStep (.node (.ddir cs)) b (.into (sp ++ [b])) =
          (true, .node (.ddir (setD cs b (.dlink (.into (sp ++ [b])))))) := by
        simp [createSymlinkStep, hfd]
      rw [hstep]
      obtain ⟨l0, d0, cs', heq, hfr⟩ := syncItems_ddir share denied rest sp dp
        (setD cs b (.dlink (.into (sp ++ [b]))))
      rw [heq]
      exact ⟨cs', rfl, by rw [hfr b hkb, findD_setD_self]⟩
    · rw [if_neg hba] at hfk
      simp only [syncItems]
      cases c with
      | sfile =>
        by_cases hex : curExists share (childCursor (.node (.ddir cs)) b) = true
        · rw [if_pos hex]
          exact syncItems_file_linked share denied rest sp dp cs a hwfr hfk hfd
        · rw [if_neg hex]
          cases hfb : findD cs b with
          | some m =>
            have hstep : createSymlinkStep (.node (.ddir cs)) b
                (.into (sp ++ [b])) = (false, .node (.ddir cs)) := by
              simp [createSymlinkStep, hfb]
            rw [hstep]
            obtain ⟨cs', h1, h2⟩ :=
              syncItems_file_linked share denied rest sp dp cs a hwfr hfk hfd
            exact ⟨cs', h1, h2⟩
          | none =>
            have hstep : createSymlinkStep (.node (.ddir cs)) b
                (.into (sp ++ [b])) =
                (true, .node (.ddir (setD cs b (.dlink (.into (sp ++ [b])))))) := by
              simp [createSymlinkStep, hfb]
            rw [hstep]
            have hfd' : findD (setD cs b (.dlink (.into (sp ++ [b])))) a = none := by
              rw [findD_setD_ne cs b a _ (fun h => hba h.symm)]
              exact hfd
            obtain ⟨cs', h1, h2⟩ :=
              syncItems_file_linked share denied rest sp dp _ a hwfr hfk hfd'
            exact ⟨cs', h1, h2⟩
      | sdir ks =>
        rcases hd : syncDir share denied (.sdir ks) (sp ++ [b]) (dp ++ [b])
            (childCursor (.node (.ddir cs)) b) with ⟨l1, d1, e⟩
        cases e with
        | some n =>
          have hfd' : findD (setD cs b n) a = none := by
            rw [findD_setD_ne cs b a _ (fun h => hba h.symm)]
            exact hfd
          obtain ⟨cs', h1, h2⟩ :=
            syncItems_file_linked share denied rest sp dp _ a hwfr hfk hfd'
          refine ⟨cs', ?_, h2⟩
          simpa [updChild] using h1
        | none =>
          obtain ⟨cs', h1, h2⟩ :=
            syncItems_file_linked share denied rest sp dp cs a hwfr hfk hfd
          refine ⟨cs', ?_, h2⟩
          simpa [updChild] using h1

/-- Claim C2 (amended): for a source directory under a configured top-level
name holding both a file and a subdirectory among its immediate children,
with no pre-existing destination counterpart, one run of `create_symlinks`
creates the destination directory as a real directory (not a directory-level
symlink) and creates a symbolic link for the file directly inside it.
Entries are processed in the source's enumeration order — files are not
prioritized over subdirectories at the same level (that rule belongs to
`_scan_and_link_directory`; see the counterexample, where a subdirectory's
link is recorded before the sibling file's). -/
theorem claim_C2_mixed_directory (cs : SKids) (hwf : cs.wfK = true)
    (a : String) (ha : findK cs a = some .sfile)
    (b : String) (kb : SKids) (hb : findK cs b = some (.sdir kb)) :
    ∃ cs', findD (createSymlinks
        (some (.sdir (.cons "models" (.sdir cs) .nil))) [] .dnil).2 "models" =
        some (.ddir cs') ∧
      findD cs' a = some (.dlink (.into ["models", a])) := by
  obtain ⟨cs', hst, hfa⟩ := syncItems_file_linked
    (.sdir (.cons "models" (.sdir cs) .nil)) [] cs ["models"] ["models"] .dnil a
    hwf ha rfl
  rcases hit : syncItems (.sdir (.cons "models" (.sdir cs) .nil)) [] cs
      ["models"] ["models"] (.node (.ddir .dnil)) with ⟨l0, d0, st0⟩
  rw [hit] at hst
  replace hst : st0 = .node (.ddir cs') := hst
  have hdir : syncDir (.sdir (.cons "models" (.sdir cs) .nil)) [] (.sdir cs)
      ["models"] ["models"] (rootCursor .dnil "models") =
      (l0, ["models"] :: d0, some (.ddir cs')) := by
    have hph : st0.phys = some (.ddir cs') := by rw [hst]; rfl
    simp [syncDir, curExists, rootCursor, findD, hit, hph]
  have hrest : syncTop (.sdir (.cons "models" (.sdir cs) .nil)) []
      ["custom_nodes", "input", "output", "user"]
      (applyEntry .dnil "models" (some (.ddir cs'))) =
      ([], [], ["custom_nodes", "input", "output", "user"],
       applyEntry .dnil "models" (some (.ddir cs'))) :=
    syncTop_cons_none rfl (syncTop_cons_none rfl (syncTop_cons_none rfl
      (syncTop_cons_none rfl rfl)))
  have hlk1 : SNode.lookup (.sdir (.cons "models" (.sdir cs) .nil)) ["models"] =
      some (.sdir cs) := rfl
  have htop := syncTop_cons_some hlk1 hdir hrest
  refine ⟨cs', ?_, hfa⟩
  have hroot : (createSymlinks
      (some (.sdir (.cons "models" (.sdir cs) .nil))) [] .dnil).2 =
      applyEntry .dnil "models" (some (.ddir cs')) := by
    simp [createSymlinks, targetDirectories, htop]
  rw [hroot]
  simp [applyEntry, setD, findD]

/-- Witness for C2 (amended): a concrete mixed `models` directory listing the
file `f` and the subdirectory `d` (holding `g`); the run creates a real
directory at `models` with the file linked inside. -/
theorem claim_C2_mixed_directory_witness :
    ∃ cs', findD (createSymlinks (some (.sdir (.cons "models"
        (.sdir (.cons "f" .sfile (.cons "d" (.sdir (.cons "g" .sfile .nil)) .nil)))
        .nil))) [] .dnil).2 "models" = some (.ddir cs') ∧
      findD cs' "f" = some (.dlink (.into ["models", "f"])) :=
  claim_C2_mixed_directory
    (.cons "f" .sfile (.cons "d" (.sdir (.cons "g" .sfile .nil)) .nil))
    rfl "f" rfl "d" (.cons "g" .sfile .nil) rfl

/-- Counterexample for C2 as stated: with the `models` directory listing the
subdirectory `d` (holding `g`) before the file `f`, `create_symlinks` records
the subdirectory's inner link before the same-level file's link — items are
processed in enumeration order, not files first (that rule only exists in
`_scan_and_link_directory`). -/
theorem claim_C2_counterexample :
    (createSymlinks (some exShareC2) [] .dnil).1.links =
      [["models", "d", "g"], ["models", "f"]] ∧
    ¬((createSymlinks (some exShareC2) [] .dnil).1.links =
      [["models", "f"], ["models", "d", "g"]]) := by
  have c1 : (createSymlinks (some exShareC2) [] .dnil).1.links =
      [["models", "d", "g"], ["models", "f"]] := rfl
  exact ⟨c1, fun h => absurd (c1.symm.trans h) (by decide)⟩

theorem prefix_snoc_of_ne {sp : List String} {x a : String} {rest : List String}
    (h : x ≠ a) : ¬((sp ++ [x]) <+: (sp ++ a :: rest)) := by
  intro hp
  rw [List.prefix_append_right_inj] at hp
  rw [List.cons_prefix_cons] at hp
  exact h hp.1

theorem snoc_prefix_cons (sp : List String) (a : String) (rest : List String) :
    (sp ++ [a]) <+: (sp ++ a :: rest) := by
  rw [List.prefix_append_right_inj, List.cons_prefix_cons]
  exact ⟨rfl, List.nil_prefix⟩

theorem prefix_decomp {sp q : List String} (h : sp <+: q) :
    sp = q ∨ ∃ a rest, q = sp ++ a :: rest := by
  obtain ⟨t, ht⟩ := h
  cases t with
  | nil => exact Or.inl (by simpa using ht)
  | cons a rest => exact Or.inr ⟨a, rest, ht.symm⟩

mutual
theorem syncDir_dcongr (share : SNode) :
    ∀ (s : SNode) (sp dp : List String) (cur : Cursor)
      (denied denied' : List (List String)),
      (∀ r, sp <+: r → (r ∈ denied ↔ r ∈ denied')) →
      syncDir share denied s sp dp cur = syncDir share denied' s sp dp cur
  | .sfile, sp, dp, cur, denied, denied', h => rfl
  | .sdir items, sp, dp, cur, denied, denied', h => by
    have hsp : (sp ∈ denied) = (sp ∈ denied') :=
      propext (h sp (List.prefix_refl sp))
    simp only [syncDir, hsp,
      syncItems_dcongr share items sp dp cur denied denied' h,
      syncItems_dcongr share items sp dp (.node (.ddir .dnil)) denied denied' h]

theorem syncItems_dcongr (share : SNode) :
    ∀ (items : SKids) (sp dp : List String) (st : Cursor)
      (denied denied' : List (List String)),
      (∀ r, sp <+: r → (r ∈ denied ↔ r ∈ denied')) →
      syncItems share denied items sp dp st = syncItems share denied' items sp dp st
  | .nil, sp, dp, st, denied, denied', h => rfl
  | .cons a .sfile rest, sp, dp, st, denied, denied', h => by
    simp only [syncItems,
      syncItems_dcongr share rest sp dp st denied denied' h,
      syncItems_dcongr share rest sp dp
        (createSymlinkStep st a (.into (sp ++ [a]))).2 denied denied' h]
  | .cons a (.sdir ks) rest, sp, dp, st, denied, denied', h => by
    have h' : ∀ r, (sp ++ [a]) <+: r → (r ∈ denied ↔ r ∈ denied') :=
      fun r hr => h r ((sp.prefix_append [a]).trans hr)
    simp only [syncItems,
      syncDir_dcongr share (.sdir ks) (sp ++ [a]) (dp ++ [a])
        (childCursor st a) denied denied' h']
    simp only [syncItems_dcongr share rest sp dp
      (updChild st a ((syncDir share denied' (.sdir ks) (sp ++ [a]) (dp ++ [a])
        (childCursor st a)).2.2)) denied denied' h]
end

mutual
theorem syncDir_local (share : SNode) (denied : List (List String)) :
    ∀ (s : SNode) (sp dp : List String) (cur : Cursor) (p : List String),
      (p ∈ (syncDir share denied s sp dp cur).1 → dp <+: p) ∧
      (p ∈ (syncDir share denied s sp dp cur).2.1 → dp <+: p)
  | .sfile, sp, dp, cur, p => by
    simp only [syncDir]
    split
    · exact ⟨fun h => absurd h (List.not_mem_nil p),
        fun h => absurd h (List.not_mem_nil p)⟩
    · cases cur with
      | free =>
        refine ⟨fun h => absurd h (List.not_mem_nil p), fun h => ?_⟩
        obtain rfl : p = dp := by simpa using h
        exact List.prefix_refl p
      | node n => exact ⟨fun h => absurd h (List.not_mem_nil p),
          fun h => absurd h (List.not_mem_nil p)⟩
      | blocked => exact ⟨fun h => absurd h (List.not_mem_nil p),
          fun h => absurd h (List.not_mem_nil p)⟩
      | thru q => exact ⟨fun h => absurd h (List.not_mem_nil p),
          fun h => absurd h (List.not_mem_nil p)⟩
  | .sdir items, sp, dp, cur, p => by
    have hstep : ∀ st, (p ∈ (syncItems share denied items sp dp st).1 → dp <+: p) ∧
        (p ∈ (syncItems share denied items sp dp st).2.1 → dp <+: p) := by
      intro st
      obtain ⟨h1, h2⟩ := syncItems_local share denied items sp dp st p
      refine ⟨fun h => ?_, fun h => ?_⟩
      · obtain ⟨a, ha⟩ := h1 h
        exact (dp.prefix_append [a]).trans ha
      · obtain ⟨a, ha⟩ := h2 h
        exact (dp.prefix_append [a]).trans ha
    simp only [syncDir]
    split
    · split
      · exact ⟨fun h => absurd h (List.not_mem_nil p),
          fun h => absurd h (List.not_mem_nil p)⟩
      · exact hstep cur
    · cases cur with
      | free =>
        by_cases hsp : sp ∈ denied
        · simp only [if_pos hsp]
          refine ⟨fun h => absurd h (List.not_mem_nil p), fun h => ?_⟩
          obtain rfl : p = dp := by simpa using h
          exact List.prefix_refl p
        · simp only [if_neg hsp]
          refine ⟨(hstep (.node (.ddir .dnil))).1, fun h => ?_⟩
          rcases List.mem_cons.mp h with rfl | h
          · exact List.prefix_refl _
          · exact (hstep (.node (.ddir .dnil))).2 h
      | node n => exact ⟨fun h => absurd h (List.not_mem_nil p),
          fun h => absurd h (List.not_mem_nil p)⟩
      | blocked => exact ⟨fun h => absurd h (List.not_mem_nil p),
          fun h => absurd h (List.not_mem_nil p)⟩
      | thru q => exact ⟨fun h => absurd h (List.not_mem_nil p),
          fun h => absurd h (List.not_mem_nil p)⟩

theorem syncItems_local (share : SNode) (denied : List (List String)) :
    ∀ (items : SKids) (sp dp : List String) (st : Cursor) (p : List String),
      (p ∈ (syncItems share denied items sp dp st).1 →
        ∃ a, (dp ++ [a]) <+: p) ∧
      (p ∈ (syncItems share denied items sp dp st).2.1 →
        ∃ a, (dp ++ [a]) <+: p)
  | .nil, sp, dp, st, p => ⟨fun h => absurd h (List.not_mem_nil p),
      fun h => absurd h (List.not_mem_nil p)⟩
  | .cons a .sfile rest, sp, dp, st, p => by
    simp only [syncItems]
    split
    · exact syncItems_local share denied rest sp dp st p
    · obtain ⟨ih1, ih2⟩ := syncItems_local share denied rest sp dp
        (createSymlinkStep st a (.into (sp ++ [a]))).2 p
      refine ⟨fun h => ?_, ih2⟩
      split at h
      · rcases List.mem_cons.mp h with rfl | h
        · exact ⟨a, List.prefix_refl _⟩
        · exact ih1 h
      · exact ih1 h
  | .cons a (.sdir ks) rest, sp, dp, st, p => by
    simp only [syncItems]
    obtain ⟨hc1, hc2⟩ := syncDir_local share denied (.sdir ks) (sp ++ [a])
      (dp ++ [a]) (childCursor st a) p
    obtain ⟨ih1, ih2⟩ := syncItems_local share denied rest sp dp
      (updChild st a ((syncDir share denied (.sdir ks) (sp ++ [a]) (dp ++ [a])
        (childCursor st a)).2.2)) p
    refine ⟨fun h => ?_, fun h => ?_⟩
    · rcases List.mem_append.mp h with h | h
      · exact ⟨a, hc1 h⟩
      · exact ih1 h
    · rcases List.mem_append.mp h with h | h
      · exact ⟨a, hc2 h⟩
      · exact ih2 h
end

theorem childCursor_agree {a : String} {st st' : Cursor}
    (h : agreeExceptAt a st st') {b : String} (hb : b ≠ a) :
    childCursor st b = childCursor st' b := by
  rcases h with rfl | ⟨cs, cs', rfl, rfl, hcc⟩
  · rfl
  · simp only [childCursor, hcc b hb]

theorem updChild_agree_other {a : String} {st st' : Cursor}
    (h : agreeExceptAt a st st') (b : String) (e : Option DNode) :
    agreeExceptAt a (updChild st b e) (updChild st' b e) := by
  rcases h with rfl | ⟨cs, cs', rfl, rfl, hcc⟩
  · exact Or.inl rfl
  · cases e with
    | none => exact Or.inr ⟨cs, cs', rfl, rfl, hcc⟩
    | some n =>
      refine Or.inr ⟨setD cs b n, setD cs' b n, rfl, rfl, fun c hc => ?_⟩
      by_cases hbc : c = b
      · subst hbc
        rw [findD_setD_self, findD_setD_self]
      · rw [findD_setD_ne cs b c n hbc, findD_setD_ne cs' b c n hbc]
        exact hcc c hc

theorem updChild_agree_self {a : String} {st st' : Cursor}
    (h : agreeExceptAt a st st') (e e' : Option DNode) :
    agreeExceptAt a (updChild st a e) (updChild st' a e') := by
  have key : ∀ (cs cs' : DKids), (∀ b, b ≠ a → findD cs b = findD cs' b) →
      agreeExceptAt a (updChild (.node (.ddir cs)) a e)
        (updChild (.node (.ddir cs')) a e') := by
    intro cs cs' hcc
    cases e with
    | none =>
      cases e' with
      | none => exact Or.inr ⟨cs, cs', rfl, rfl, hcc⟩
      | some n' => exact Or.inr ⟨cs, setD cs' a n', rfl, rfl,
          fun b hb => (hcc b hb).trans (findD_setD_ne cs' a b n' hb).symm⟩
    | some n =>
      cases e' with
      | none => exact Or.inr ⟨setD cs a n, cs', rfl, rfl,
          fun b hb => (findD_setD_ne cs a b n hb).trans (hcc b hb)⟩
      | some n' => exact Or.inr ⟨setD cs a n, setD cs' a n', rfl, rfl,
          fun b hb => ((findD_setD_ne cs a b n hb).trans (hcc b hb)).trans
            (findD_setD_ne cs' a b n' hb).symm⟩
  rcases h with rfl | ⟨cs, cs', rfl, rfl, hcc⟩
  · cases st with
    | node d =>
      cases d with
      | ddir cs => exact key cs cs (fun b _ => rfl)
      | dfile => cases e <;> cases e' <;> exact Or.inl rfl
      | dlink t => cases e <;> cases e' <;> exact Or.inl rfl
    | free => cases e <;> cases e' <;> exact Or.inl rfl
    | blocked => cases e <;> cases e' <;> exact Or.inl rfl
    | thru q => cases e <;> cases e' <;> exact Or.inl rfl
  · exact key cs cs' hcc

theorem createSymlinkStep_agree {a : String} {st st' : Cursor}
    (h : agreeExceptAt a st st') {b : String} (hb : b ≠ a) (t : LTgt) :
    (createSymlinkStep st b t).1 = (createSymlinkStep st' b t).1 ∧
      agreeExceptAt a (createSymlinkStep st b t).2 (createSymlinkStep st' b t).2 := by
  rcases h with rfl | ⟨cs, cs', rfl, rfl, hcc⟩
  · exact ⟨rfl, Or.inl rfl⟩
  · have hf : findD cs b = findD cs' b := hcc b hb
    cases hfb : findD cs' b with
    | some n =>
      rw [hfb] at hf
      simp only [createSymlinkStep, hf, hfb]
      exact ⟨trivial, Or.inr ⟨cs, cs', rfl, rfl, hcc⟩⟩
    | none =>
      rw [hfb] at hf
      simp only [createSymlinkStep, hf, hfb]
      refine ⟨trivial, Or.inr ⟨setD cs b (.dlink t), setD cs' b (.dlink t), rfl, rfl,
        fun c hc => ?_⟩⟩
      by_cases hbc : c = b
      · subst hbc
        rw [findD_setD_self, findD_setD_self]
      · rw [findD_setD_ne cs b c _ hbc, findD_setD_ne cs' b c _ hbc]
        exact hcc c hc

theorem syncItems_post (share : SNode) (q : List String)
    (D : List (List String)) (a : String) :
    ∀ (items : SKids) (sp qrest : List String) (st st' : Cursor),
      q = sp ++ a :: qrest → items.keyFree a = true → agreeExceptAt a st st' →
      (syncItems share (q :: D) items sp sp st).1 =
        (syncItems share D items sp sp st').1 ∧
      (syncItems share (q :: D) items sp sp st).2.1 =
        (syncItems share D items sp sp st').2.1 ∧
      agreeExceptAt a (syncItems share (q :: D) items sp sp st).2.2
        (syncItems share D items sp sp st').2.2
  | .nil, sp, qrest, st, st', hq, hkf, hag => ⟨rfl, rfl, hag⟩
  | .cons b .sfile rest, sp, qrest, st, st', hq, hkf, hag => by
    simp only [SKids.keyFree, Bool.and_eq_true, Bool.not_eq_true'] at hkf
    have hbne : b ≠ a := by simpa using hkf.1
    have hcc : childCursor st b = childCursor st' b := childCursor_agree hag hbne
    simp only [syncItems, hcc]
    by_cases hex : curExists share (childCursor st' b) = true
    · rw [if_pos hex, if_pos hex]
      exact syncItems_post share q D a rest sp qrest st st' hq hkf.2 hag
    · rw [if_neg hex, if_neg hex]
      obtain ⟨hok, hag2⟩ := createSymlinkStep_agree hag hbne (.into (sp ++ [b]))
      rcases h1 : createSymlinkStep st b (.into (sp ++ [b])) with ⟨ok, st2⟩
      rcases h2 : createSymlinkStep st' b (.into (sp ++ [b])) with ⟨ok', st2'⟩
      rw [h1, h2] at hok hag2
      have hok' : ok = ok' := hok
      have hag2' : agreeExceptAt a st2 st2' := hag2
      obtain ih := syncItems_post share q D a rest sp qrest st2 st2' hq hkf.2 hag2'
      rcases h3 : syncItems share (q :: D) rest sp sp st2 with ⟨l2, d2, st3⟩
      rcases h4 : syncItems share D rest sp sp st2' with ⟨l2', d2', st3'⟩
      rw [h3, h4] at ih
      simp only [h1, h2, h3, h4]
      obtain rfl : ok = ok' := hok'
      obtain rfl : l2 = l2' := ih.1
      obtain rfl : d2 = d2' := ih.2.1
      exact ⟨rfl, rfl, ih.2.2⟩
  | .cons b (.sdir ks) rest, sp, qrest, st, st', hq, hkf, hag => by
    simp only [SKids.keyFree, Bool.and_eq_true, Bool.not_eq_true'] at hkf
    have hbne : b ≠ a := by simpa using hkf.1
    have hcc : childCursor st b = childCursor st' b := childCursor_agree hag hbne
    have hdc : syncDir share (q :: D) (.sdir ks) (sp ++ [b]) (sp ++ [b])
        (childCursor st b)
        = syncDir share D (.sdir ks) (sp ++ [b]) (sp ++ [b]) (childCursor st' b) := by
      rw [hcc]
      refine syncDir_dcongr share (.sdir ks) (sp ++ [b]) (sp ++ [b])
        (childCursor st' b) (q :: D) D (fun r hr => ?_)
      have hrq : r ≠ q := by
        intro h
        subst h
        rw [hq] at hr
        exact prefix_snoc_of_ne hbne hr
      constructor
      · intro h
        rcases List.mem_cons.mp h with h | h
        · exact absurd h hrq
        · exact h
      · exact fun h => List.mem_cons_of_mem q h
    simp only [syncItems, hdc]
    rcases hd : syncDir share D (.sdir ks) (sp ++ [b]) (sp ++ [b])
      (childCursor st' b) with ⟨l1, d1, e⟩
    simp only [hd]
    have hag2 : agreeExceptAt a (updChild st b e) (updChild st' b e) :=
      updChild_agree_other hag b e
    obtain ih := syncItems_post share q D a rest sp qrest
      (updChild st b e) (updChild st' b e) hq hkf.2 hag2
    rcases h3 : syncItems share (q :: D) rest sp sp (updChild st b e)
      with ⟨l2, d2, st3⟩
    rcases h4 : syncItems share D rest sp sp (updChild st' b e)
      with ⟨l2', d2', st3'⟩
    rw [h3, h4] at ih
    simp only [h3, h4]
    obtain rfl : l2 = l2' := ih.1
    obtain rfl : d2 = d2' := ih.2.1
    exact ⟨rfl, rfl, ih.2.2⟩

mutual
theorem syncDir_cmp (share : SNode) (q : List String) (D : List (List String)) :
    ∀ (s : SNode) (sp : List String) (cur : Cursor),
      s.wf = true → sp <+: q →
      (∀ p, ¬ q <+: p →
        (p ∈ (syncDir share (q :: D) s sp sp cur).1 ↔
         p ∈ (syncDir share D s sp sp cur).1)) ∧
      (∀ p, ¬ q <+: p →
        (p ∈ (syncDir share (q :: D) s sp sp cur).2.1 ↔
         p ∈ (syncDir share D s sp sp cur).2.1))
  | .sfile, sp, cur, hwf, hpre =>
    ⟨fun p _ => Iff.rfl, fun p _ => Iff.rfl⟩
  | .sdir items, sp, cur, hwf, hpre => by
    rcases prefix_decomp hpre with heq | ⟨a, qrest, hq⟩
    · refine ⟨fun p hp => iff_of_false (fun h => hp ?_) (fun h => hp ?_),
        fun p hp => iff_of_false (fun h => hp ?_) (fun h => hp ?_)⟩
      · rw [← heq]
        exact (syncDir_local share (q :: D) (.sdir items) sp sp cur p).1 h
      · rw [← heq]
        exact (syncDir_local share D (.sdir items) sp sp cur p).1 h
      · rw [← heq]
        exact (syncDir_local share (q :: D) (.sdir items) sp sp cur p).2 h
      · rw [← heq]
        exact (syncDir_local share D (.sdir items) sp sp cur p).2 h
    · have hwfk : items.wfK = true := hwf
      have hne : sp ≠ q := by
        intro h
        rw [hq] at h
        have hlen := congrArg List.length h
        simp only [List.length_append, List.length_cons] at hlen
        omega
      have hmem : (sp ∈ q :: D) = (sp ∈ D) :=
        propext ⟨fun h => (List.mem_cons.mp h).resolve_left hne,
          fun h => List.mem_cons_of_mem q h⟩
      by_cases hex : curExists share cur = true
      · simp only [syncDir, if_pos hex, hmem]
        by_cases hsp : sp ∈ D
        · simp only [if_pos hsp]
          exact ⟨fun p _ => trivial, fun p _ => trivial⟩
        · simp only [if_neg hsp]
          obtain ih := syncItems_cmp share q D items sp a qrest cur hwfk hq
          exact ⟨ih.1, ih.2.1⟩
      · cases cur with
        | node n =>
          simp only [syncDir, if_neg hex]
          exact ⟨fun p _ => trivial, fun p _ => trivial⟩
        | blocked =>
          simp only [syncDir, if_neg hex]
          exact ⟨fun p _ => trivial, fun p _ => trivial⟩
        | thru q2 =>
          simp only [syncDir, if_neg hex]
          exact ⟨fun p _ => trivial, fun p _ => trivial⟩
        | free =>
          simp only [syncDir, if_neg hex, hmem]
          by_cases hsp : sp ∈ D
          · simp only [if_pos hsp]
            exact ⟨fun p _ => trivial, fun p _ => trivial⟩
          · simp only [if_neg hsp]
            obtain ih := syncItems_cmp share q D items sp a qrest
              (.node (.ddir .dnil)) hwfk hq
            refine ⟨ih.1, fun p hp => ?_⟩
            rcases h3 : syncItems share (q :: D) items sp sp (.node (.ddir .dnil))
              with ⟨l, d, st⟩
            rcases h4 : syncItems share D items sp sp (.node (.ddir .dnil))
              with ⟨l', d', st'⟩
            rw [h3, h4] at ih
            have hd : p ∈ d ↔ p ∈ d' := ih.2.1 p hp
            simp only [h3, h4]
            show p ∈ sp :: d ↔ p ∈ sp :: d'
            simp only [List.mem_cons, hd]

theorem syncItems_cmp (share : SNode) (q : List String) (D : List (List String)) :
    ∀ (items : SKids) (sp : List String) (a : String) (qrest : List String)
      (st : Cursor), items.wfK = true → q = sp ++ a :: qrest →
      (∀ p, ¬ q <+: p →
        (p ∈ (syncItems share (q :: D) items sp sp st).1 ↔
         p ∈ (syncItems share D items sp sp st).1)) ∧
      (∀ p, ¬ q <+: p →
        (p ∈ (syncItems share (q :: D) items sp sp st).2.1 ↔
         p ∈ (syncItems share D items sp sp st).2.1)) ∧
      agreeExceptAt a (syncItems share (q :: D) items sp sp st).2.2
        (syncItems share D items sp sp st).2.2
  | .nil, sp, a, qrest, st, hwf, hq =>
    ⟨fun p _ => Iff.rfl, fun p _ => Iff.rfl, Or.inl rfl⟩
  | .cons b .sfile rest, sp, a, qrest, st, hwf, hq => by
    simp only [SKids.wfK, Bool.and_eq_true] at hwf
    by_cases hex : curExists share (childCursor st b) = true
    · have eL : syncItems share (q :: D) (.cons b .sfile rest) sp sp st
          = syncItems share (q :: D) rest sp sp st := by
        simp only [syncItems, if_pos hex]
      have eR : syncItems share D (.cons b .sfile rest) sp sp st
          = syncItems share D rest sp sp st := by
        simp only [syncItems, if_pos hex]
      rw [eL, eR]
      exact syncItems_cmp share q D rest sp a qrest st hwf.2 hq
    · rcases h1 : createSymlinkStep st b (.into (sp ++ [b])) with ⟨ok, st2⟩
      obtain ih := syncItems_cmp share q D rest sp a qrest st2 hwf.2 hq
      rcases h3 : syncItems share (q :: D) rest sp sp st2 with ⟨l2, d2, st3⟩
      rcases h4 : syncItems share D rest sp sp st2 with ⟨l2', d2', st3'⟩
      rw [h3, h4] at ih
      have hiff : ∀ p, ¬ q <+: p → (p ∈ l2 ↔ p ∈ l2') := ih.1
      have hdiff : ∀ p, ¬ q <+: p → (p ∈ d2 ↔ p ∈ d2') := ih.2.1
      have hst : agreeExceptAt a st3 st3' := ih.2.2
      have eL : syncItems share (q :: D) (.cons b .sfile rest) sp sp st
          = (if ok then (sp ++ [b]) :: l2 else l2, d2, st3) := by
        simp only [syncItems, if_neg hex, h1, h3]
      have eR : syncItems share D (.cons b .sfile rest) sp sp st
          = (if ok then (sp ++ [b]) :: l2' else l2', d2', st3') := by
        simp only [syncItems, if_neg hex, h1, h4]
      rw [eL, eR]
      refine ⟨fun p hp => ?_, fun p hp => ?_, ?_⟩
      · show p ∈ (if ok then (sp ++ [b]) :: l2 else l2) ↔
          p ∈ (if ok then (sp ++ [b]) :: l2' else l2')
        cases ok with
        | false => exact hiff p hp
        | true =>
          show p ∈ (sp ++ [b]) :: l2 ↔ p ∈ (sp ++ [b]) :: l2'
          simp only [List.mem_cons, hiff p hp]
      · show p ∈ d2 ↔ p ∈ d2'
        exact hdiff p hp
      · show agreeExceptAt a st3 st3'
        exact hst
  | .cons b (.sdir ks) rest, sp, a, qrest, st, hwf, hq => by
    simp only [SKids.wfK, Bool.and_eq_true] at hwf
    by_cases hba : b = a
    · subst hba
      obtain hcmp := syncDir_cmp share q D (.sdir ks) (sp ++ [b]) (childCursor st b)
        hwf.1.2 (by rw [hq]; exact snoc_prefix_cons sp b qrest)
      rcases h1 : syncDir share (q :: D) (.sdir ks) (sp ++ [b]) (sp ++ [b])
        (childCursor st b) with ⟨l1, d1, e1⟩
      rcases h2 : syncDir share D (.sdir ks) (sp ++ [b]) (sp ++ [b])
        (childCursor st b) with ⟨l1', d1', e1'⟩
      rw [h1, h2] at hcmp
      have hl1 : ∀ p, ¬ q <+: p → (p ∈ l1 ↔ p ∈ l1') := hcmp.1
      have hd1 : ∀ p, ¬ q <+: p → (p ∈ d1 ↔ p ∈ d1') := hcmp.2
      have hag2 : agreeExceptAt b (updChild st b e1) (updChild st b e1') :=
        updChild_agree_self (Or.inl rfl) e1 e1'
      obtain hpost := syncItems_post share q D b rest sp qrest
        (updChild st b e1) (updChild st b e1') hq hwf.1.1 hag2
      rcases h3 : syncItems share (q :: D) rest sp sp (updChild st b e1)
        with ⟨l2, d2, st3⟩
      rcases h4 : syncItems share D rest sp sp (updChild st b e1')
        with ⟨l2', d2', st3'⟩
      rw [h3, h4] at hpost
      have hst : agreeExceptAt b st3 st3' := hpost.2.2
      have eL : syncItems share (q :: D) (.cons b (.sdir ks) rest) sp sp st
          = (l1 ++ l2, d1 ++ d2, st3) := by
        simp only [syncItems, h1, h3]
      have eR : syncItems share D (.cons b (.sdir ks) rest) sp sp st
          = (l1' ++ l2', d1' ++ d2', st3') := by
        simp only [syncItems, h2, h4]
      rw [eL, eR]
      obtain rfl : l2 = l2' := hpost.1
      obtain rfl : d2 = d2' := hpost.2.1
      refine ⟨fun p hp => ?_, fun p hp => ?_, hst⟩
      · show p ∈ l1 ++ l2 ↔ p ∈ l1' ++ l2
        simp only [List.mem_append, hl1 p hp]
      · show p ∈ d1 ++ d2 ↔ p ∈ d1' ++ d2
        simp only [List.mem_append, hd1 p hp]
    · have hdc : syncDir share (q :: D) (.sdir ks) (sp ++ [b]) (sp ++ [b])
          (childCursor st b)
          = syncDir share D (.sdir ks) (sp ++ [b]) (sp ++ [b]) (childCursor st b) :=
        syncDir_dcongr share (.sdir ks) (sp ++ [b]) (sp ++ [b]) (childCursor st b)
          (q :: D) D (fun r hr => by
            have hrq : r ≠ q := by
              intro h
              subst h
              rw [hq] at hr
              exact prefix_snoc_of_ne hba hr
            constructor
            · intro h
              rcases List.mem_cons.mp h with h | h
              · exact absurd h hrq
              · exact h
            · exact fun h => List.mem_cons_of_mem q h)
      rcases h2 : syncDir share D (.sdir ks) (sp ++ [b]) (sp ++ [b])
        (childCursor st b) with ⟨l1, d1, e⟩
      obtain ih := syncItems_cmp share q D rest sp a qrest (updChild st b e)
        hwf.2 hq
      rcases h3 : syncItems share (q :: D) rest sp sp (updChild st b e)
        with ⟨l2, d2, st3⟩
      rcases h4 : syncItems share D rest sp sp (updChild st b e)
        with ⟨l2', d2', st3'⟩
      rw [h3, h4] at ih
      have hl : ∀ p, ¬ q <+: p → (p ∈ l2 ↔ p ∈ l2') := ih.1
      have hd : ∀ p, ¬ q <+: p → (p ∈ d2 ↔ p ∈ d2') := ih.2.1
      have hst : agreeExceptAt a st3 st3' := ih.2.2
      have eL : syncItems share (q :: D) (.cons b (.sdir ks) rest) sp sp st
          = (l1 ++ l2, d1 ++ d2, st3) := by
        simp only [syncItems, hdc, h2, h3]
      have eR : syncItems share D (.cons b (.sdir ks) rest) sp sp st
          = (l1 ++ l2', d1 ++ d2', st3') := by
        simp only [syncItems, h2, h4]
      rw [eL, eR]
      refine ⟨fun p hp => ?_, fun p hp => ?_, hst⟩
      · show p ∈ l1 ++ l2 ↔ p ∈ l1 ++ l2'
        simp only [List.mem_append, hl p hp]
      · show p ∈ d1 ++ d2 ↔ p ∈ d1 ++ d2'
        simp only [List.mem_append, hd p hp]
end

theorem syncTop_post (share : SNode) (d : String) (qtail : List String)
    (D : List (List String)) :
    ∀ (names : List String) (r r' : DKids),
      (∀ b, b ∈ names → b ≠ d) → (∀ b, b ≠ d → findD r b = findD r' b) →
      (syncTop share ((d :: qtail) :: D) names r).1 =
        (syncTop share D names r').1 ∧
      (syncTop share ((d :: qtail) :: D) names r).2.1 =
        (syncTop share D names r').2.1 ∧
      (syncTop share ((d :: qtail) :: D) names r).2.2.1 =
        (syncTop share D names r').2.2.1 ∧
      (∀ b, b ≠ d → findD (syncTop share ((d :: qtail) :: D) names r).2.2.2 b =
        findD (syncTop share D names r').2.2.2 b)
  | [], r, r', hn, hag => ⟨rfl, rfl, rfl, hag⟩
  | d2 :: rest, r, r', hn, hag => by
    have hd2 : d2 ≠ d := hn d2 (List.mem_cons_self d2 rest)
    have hrest : ∀ b, b ∈ rest → b ≠ d :=
      fun b hb => hn b (List.mem_cons_of_mem d2 hb)
    have hrc : rootCursor r d2 = rootCursor r' d2 := by
      simp only [rootCursor, hag d2 hd2]
    cases hlk : share.lookup [d2] with
    | none =>
      obtain ih := syncTop_post share d qtail D rest r r' hrest hag
      rcases h3 : syncTop share ((d :: qtail) :: D) rest r with ⟨l2, dd2, sk2, r2⟩
      rcases h4 : syncTop share D rest r' with ⟨l2', dd2', sk2', r2'⟩
      rw [h3, h4] at ih
      rw [syncTop_cons_none hlk h3, syncTop_cons_none hlk h4]
      obtain rfl : l2 = l2' := ih.1
      obtain rfl : dd2 = dd2' := ih.2.1
      obtain rfl : sk2 = sk2' := ih.2.2.1
      exact ⟨rfl, rfl, rfl, ih.2.2.2⟩
    | some s =>
      have hdc : syncDir share ((d :: qtail) :: D) s [d2] [d2] (rootCursor r d2)
          = syncDir share D s [d2] [d2] (rootCursor r' d2) := by
        rw [hrc]
        refine syncDir_dcongr share s [d2] [d2] (rootCursor r' d2)
          ((d :: qtail) :: D) D (fun p hp => ?_)
        have hpq : p ≠ d :: qtail := by
          intro h
          subst h
          obtain ⟨t, ht⟩ := hp
          have ht' : d2 :: t = d :: qtail := ht
          injection ht' with h1 _
          exact hd2 h1
        constructor
        · intro h
          rcases List.mem_cons.mp h with h | h
          · exact absurd h hpq
          · exact h
        · exact fun h => List.mem_cons_of_mem _ h
      rcases hd1 : syncDir share D s [d2] [d2] (rootCursor r' d2) with ⟨l1, dd1, e⟩
      have hdL : syncDir share ((d :: qtail) :: D) s [d2] [d2] (rootCursor r d2)
          = (l1, dd1, e) := by rw [hdc, hd1]
      have hag2 : ∀ b, b ≠ d →
          findD (applyEntry r d2 e) b = findD (applyEntry r' d2 e) b := by
        intro b hb
        by_cases hbd2 : b = d2
        · subst hbd2
          cases e with
          | none => exact hag b hb
          | some n => simp only [applyEntry, findD_setD_self]
        · rw [findD_applyEntry_ne e hbd2, findD_applyEntry_ne e hbd2]
          exact hag b hb
      obtain ih := syncTop_post share d qtail D rest (applyEntry r d2 e)
        (applyEntry r' d2 e) hrest hag2
      rcases h3 : syncTop share ((d :: qtail) :: D) rest (applyEntry r d2 e)
        with ⟨l2, dd2, sk2, r2⟩
      rcases h4 : syncTop share D rest (applyEntry r' d2 e)
        with ⟨l2', dd2', sk2', r2'⟩
      rw [h3, h4] at ih
      rw [syncTop_cons_some hlk hdL h3, syncTop_cons_some hlk hd1 h4]
      obtain rfl : l2 = l2' := ih.1
      obtain rfl : dd2 = dd2' := ih.2.1
      obtain rfl : sk2 = sk2' := ih.2.2.1
      exact ⟨rfl, rfl, rfl, ih.2.2.2⟩

theorem syncTop_cmp (share : SNode) (q : List String) (D : List (List String))
    (hwf : share.wf = true) :
    ∀ (names : List String) (root : DKids), names.Nodup →
      (∀ p, ¬ q <+: p →
        (p ∈ (syncTop share (q :: D) names root).1 ↔
         p ∈ (syncTop share D names root).1)) ∧
      (∀ p, ¬ q <+: p →
        (p ∈ (syncTop share (q :: D) names root).2.1 ↔
         p ∈ (syncTop share D names root).2.1)) ∧
      (syncTop share (q :: D) names root).2.2.1 =
        (syncTop share D names root).2.2.1
  | [], root, hnd => ⟨fun p _ => Iff.rfl, fun p _ => Iff.rfl, rfl⟩
  | d2 :: rest, root, hnd => by
    have hndr : rest.Nodup := (List.nodup_cons.mp hnd).2
    have hd2r : d2 ∉ rest := (List.nodup_cons.mp hnd).1
    cases hlk : share.lookup [d2] with
    | none =>
      obtain ih := syncTop_cmp share q D hwf rest root hndr
      rcases h3 : syncTop share (q :: D) rest root with ⟨l2, dd2, sk2, r2⟩
      rcases h4 : syncTop share D rest root with ⟨l2', dd2', sk2', r2'⟩
      rw [h3, h4] at ih
      have hsk : sk2 = sk2' := ih.2.2
      subst hsk
      rw [syncTop_cons_none hlk h3, syncTop_cons_none hlk h4]
      exact ⟨ih.1, ih.2.1, rfl⟩
    | some s =>
      by_cases hq2 : [d2] <+: q
      · obtain ⟨qtail, hq⟩ : ∃ qtail, q = d2 :: qtail := by
          obtain ⟨t, ht⟩ := hq2
          exact ⟨t, ht.symm⟩
        subst hq
        have hswf : s.wf = true := wf_lookup hwf hlk
        obtain hcmp := syncDir_cmp share (d2 :: qtail) D s [d2]
          (rootCursor root d2) hswf hq2
        rcases h1 : syncDir share ((d2 :: qtail) :: D) s [d2] [d2]
          (rootCursor root d2) with ⟨l1, dd1, e1⟩
        rcases h2 : syncDir share D s [d2] [d2] (rootCursor root d2)
          with ⟨l1', dd1', e1'⟩
        rw [h1, h2] at hcmp
        have hl1 : ∀ p, ¬ (d2 :: qtail) <+: p → (p ∈ l1 ↔ p ∈ l1') := hcmp.1
        have hdd1 : ∀ p, ¬ (d2 :: qtail) <+: p → (p ∈ dd1 ↔ p ∈ dd1') := hcmp.2
        have hag : ∀ b, b ≠ d2 → findD (applyEntry root d2 e1) b
            = findD (applyEntry root d2 e1') b := by
          intro b hb
          rw [findD_applyEntry_ne e1 hb, findD_applyEntry_ne e1' hb]
        have hrest : ∀ b, b ∈ rest → b ≠ d2 := fun b hb heq => hd2r (heq ▸ hb)
        obtain hpost := syncTop_post share d2 qtail D rest (applyEntry root d2 e1)
          (applyEntry root d2 e1') hrest hag
        rcases h3 : syncTop share ((d2 :: qtail) :: D) rest (applyEntry root d2 e1)
          with ⟨l2, dd2, sk2, r2⟩
        rcases h4 : syncTop share D rest (applyEntry root d2 e1')
          with ⟨l2', dd2', sk2', r2'⟩
        rw [h3, h4] at hpost
        rw [syncTop_cons_some hlk h1 h3, syncTop_cons_some hlk h2 h4]
        obtain rfl : l2 = l2' := hpost.1
        obtain rfl : dd2 = dd2' := hpost.2.1
        obtain rfl : sk2 = sk2' := hpost.2.2.1
        refine ⟨fun p hp => ?_, fun p hp => ?_, rfl⟩
        · show p ∈ l1 ++ l2 ↔ p ∈ l1' ++ l2
          simp only [List.mem_append, hl1 p hp]
        · show p ∈ dd1 ++ dd2 ↔ p ∈ dd1' ++ dd2
          simp only [List.mem_append, hdd1 p hp]
      · have hdc : syncDir share (q :: D) s [d2] [d2] (rootCursor root d2)
            = syncDir share D s [d2] [d2] (rootCursor root d2) :=
          syncDir_dcongr share s [d2] [d2] (rootCursor root d2) (q :: D) D
            (fun p hp => by
              have hpq : p ≠ q := fun h => hq2 (h ▸ hp)
              constructor
              · intro h
                rcases List.mem_cons.mp h with h | h
                · exact absurd h hpq
                · exact h
              · exact fun h => List.mem_cons_of_mem _ h)
        rcases h2 : syncDir share D s [d2] [d2] (rootCursor root d2)
          with ⟨l1, dd1, e⟩
        have h1 : syncDir share (q :: D) s [d2] [d2] (rootCursor root d2)
            = (l1, dd1, e) := by rw [hdc, h2]
        obtain ih := syncTop_cmp share q D hwf rest (applyEntry root d2 e) hndr
        rcases h3 : syncTop share (q :: D) rest (applyEntry root d2 e)
          with ⟨l2, dd2, sk2, r2⟩
        rcases h4 : syncTop share D rest (applyEntry root d2 e)
          with ⟨l2', dd2', sk2', r2'⟩
        rw [h3, h4] at ih
        rw [syncTop_cons_some hlk h1 h3, syncTop_cons_some hlk h2 h4]
        have hl : ∀ p, ¬ q <+: p → (p ∈ l2 ↔ p ∈ l2') := ih.1
        have hd : ∀ p, ¬ q <+: p → (p ∈ dd2 ↔ p ∈ dd2') := ih.2.1
        have hsk : sk2 = sk2' := ih.2.2
        subst hsk
        refine ⟨fun p hp => ?_, fun p hp => ?_, rfl⟩
        · show p ∈ l1 ++ l2 ↔ p ∈ l1 ++ l2'
          simp only [List.mem_append, hl p hp]
        · show p ∈ dd1 ++ dd2 ↔ p ∈ dd1 ++ dd2'
          simp only [List.mem_append, hd p hp]

/-- Claim C5: no exception propagates out of a top-level `create_symlinks`
call — every `try/except` of the source is an explicit abort branch of the
total model — and an enumeration failure in one subtree abandons only that
subtree.  In general: for any well-formed share tree, any destination root and
any further denied paths, denying the enumeration of one share path `q` (a
permission error there) changes no recorded link and no recorded directory
outside `q`'s subtree and leaves the skipped names unchanged.  Concretely:
with the enumeration of `models/a` denied, for any children of that directory,
the run still creates the links of the sibling subtree `models/b` and of the
other top-level name `input`, while `models/a` keeps only the directory
created before the failing enumeration and receives no entries below it. -/
theorem claim_C5_failure_isolation (share : SNode) (q : List String)
    (D : List (List String)) (root : DKids) (hwf : share.wf = true) :
    ((∀ p, ¬ q <+: p →
      (p ∈ (createSymlinks (some share) (q :: D) root).1.links ↔
       p ∈ (createSymlinks (some share) D root).1.links)) ∧
     (∀ p, ¬ q <+: p →
      (p ∈ (createSymlinks (some share) (q :: D) root).1.dirs ↔
       p ∈ (createSymlinks (some share) D root).1.dirs)) ∧
     (createSymlinks (some share) (q :: D) root).1.skipped =
       (createSymlinks (some share) D root).1.skipped) ∧
    (∀ ks : SKids,
      (createSymlinks (some (exShareC5 (.sdir ks))) [["models", "a"]] .dnil).1.links =
        [["models", "b", "f"], ["input", "g"]] ∧
      physAt (createSymlinks (some (exShareC5 (.sdir ks))) [["models", "a"]] .dnil).2
        ["models", "a"] = some (.ddir .dnil) ∧
      (∀ x, physAt (createSymlinks (some (exShareC5 (.sdir ks)))
        [["models", "a"]] .dnil).2 ["models", "a", x] = none) ∧
      physAt (createSymlinks (some (exShareC5 (.sdir ks))) [["models", "a"]] .dnil).2
        ["models", "b", "f"] = some (.dlink (.into ["models", "b", "f"])) ∧
      physAt (createSymlinks (some (exShareC5 (.sdir ks))) [["models", "a"]] .dnil).2
        ["input", "g"] = some (.dlink (.into ["input", "g"]))) := by
  constructor
  · have hnd : targetDirectories.Nodup := by decide
    obtain ⟨h1, h2, h3⟩ := syncTop_cmp share q D hwf targetDirectories root hnd
    rcases e1 : syncTop share (q :: D) targetDirectories root with ⟨l, d, sk, r⟩
    rcases e2 : syncTop share D targetDirectories root with ⟨l', d', sk', r'⟩
    rw [e1, e2] at h1 h2 h3
    have c1 : createSymlinks (some share) (q :: D) root = (⟨l, d, sk⟩, r) := by
      simp only [createSymlinks, e1]
    have c2 : createSymlinks (some share) D root = (⟨l', d', sk'⟩, r') := by
      simp only [createSymlinks, e2]
    rw [c1, c2]
    exact ⟨h1, h2, h3⟩
  · intro ks
    exact ⟨rfl, rfl, fun x => rfl, rfl, rfl⟩

theorem claim_C5_failure_isolation_witness :
    (exShareC5 (.sdir .nil)).wf = true ∧
    ¬ ["models", "a"] <+: ["models", "b", "f"] ∧
    (["models", "b", "f"] ∈ (createSymlinks (some (exShareC5 (.sdir .nil)))
        [["models", "a"]] .dnil).1.links ↔
      ["models", "b", "f"] ∈ (createSymlinks (some (exShareC5 (.sdir .nil)))
        [] .dnil).1.links) :=
  ⟨by decide, by decide,
    (claim_C5_failure_isolation (exShareC5 (.sdir .nil)) ["models", "a"] []
      .dnil (by decide)).1.1 ["models", "b", "f"] (by decide)⟩
